import Mathlib

/-
Verification of the clustered-gateway core against its specification.

The development shallowly embeds three Go source files:
  * pkg/object/httpserver/runtime.go  (HTTP server runtime FSM)
  * pkg/cluster/gateway/gateway.go    (gossip gateway cluster)
  * the duration sampler (package sampler)

Machine integers are modelled as Nat/Int; Go's truncated integer division
is modelled with Int.div; float comparisons of the form count/total >= p
are modelled as exact rational comparisons (count * 1000 >= p1000 * total),
with the NaN case (total = 0) treated explicitly.
-/

namespace HTTPServer

/-- The four runtime states (stateNil, stateFailed, stateRunning,
stateClosed in runtime.go). -/
inductive StateType where
  | stateNil
  | stateFailed
  | stateRunning
  | stateClosed
deriving DecidableEq, Repr

/-- Modelled from the spec: the HTTP server `Spec` struct is declared in a
source file outside the provided sources; §3 ServerSpec lists exactly the
fields `{port, httpsEnabled, http3Enabled, keepAlive, keepAliveTimeout,
maxConnections, cacheSize, xForwardedFor, tracing, ipFilter, rules}`.
The payloads of tracing / ipFilter / rules are opaque to the runtime
(nil-able pointers and a slice in Go), modelled as Option values. -/
structure Spec where
  port : Nat
  https : Bool
  http3 : Bool
  keepAlive : Bool
  keepAliveTimeout : String
  maxConnections : Nat
  cacheSize : Nat
  xForwardedFor : Bool
  tracing : Option Nat
  ipFilter : Option Nat
  rules : Option (List Nat)
deriving DecidableEq, Repr

/-- Zeroing of the six hot-reloadable fields, as done on the two local
copies x, y inside needRestartServer. -/
def zeroHotFields (s : Spec) : Spec :=
  { s with maxConnections := 0, cacheSize := 0, xForwardedFor := false,
           tracing := none, ipFilter := none, rules := none }

/-- needRestartServer from runtime.go: copy both specs, zero the six
hot-reloadable fields, and report whether the copies still differ
(reflect.DeepEqual on the zeroed copies). -/
def needRestartServer (spec nextSpec : Spec) : Bool :=
  decide (zeroHotFields spec ≠ zeroHotFields nextSpec)

/-- The runtime fields relevant to the FSM: current spec (nil before the
first reload), roundNum, state and error. -/
structure Runtime where
  spec : Option Spec
  roundNum : Nat
  state : StateType
  err : String
deriving DecidableEq, Repr

/-- FSM events (eventCheckFailed, eventServeFailed, eventReload,
eventClose).  `listenOK` is the oracle for the outcome of gnet.Listen in
startHTTP1And2Server: listening may fail, which the code turns into state
stateFailed synchronously.  eventReload carries such an oracle as well
because reload may call startServer. -/
inductive Event where
  | checkFailed (listenOK : Bool)
  | serveFailed (roundNum : Nat) (err : String)
  | reload (nextSpec : Option Spec) (listenOK : Bool)
  | close
deriving DecidableEq, Repr

/-- startServer from runtime.go: bump roundNum, set state running and
clear the error; for the HTTP/1+2 path a failed gnet.Listen sets state
failed with the listen error.  (The HTTP/3 path reports serve errors only
through later eventServeFailed events.)  The source dereferences r.spec
here; its call sites always set the spec first, so the `none` branch is
unreachable from them and is kept state-neutral. -/
def startServer (listenOK : Bool) (r : Runtime) : Runtime :=
  let r := { r with roundNum := r.roundNum + 1,
                    state := StateType.stateRunning, err := "" }
  match r.spec with
  | none => r
  | some spec =>
    if spec.http3 then r
    else if listenOK then r
    else { r with state := StateType.stateFailed, err := "listen failed" }

/-- handleEventCheckFailed from runtime.go. -/
def handleEventCheckFailed (listenOK : Bool) (r : Runtime) : Runtime :=
  if r.state = StateType.stateFailed then startServer listenOK r else r

/-- handleEventServeFailed from runtime.go: ignore the event when
r.roundNum > e.roundNum, otherwise enter stateFailed recording the
event's error. -/
def handleEventServeFailed (round : Nat) (e : String) (r : Runtime) : Runtime :=
  if r.roundNum > round then r
  else { r with state := StateType.stateFailed, err := e }

/-- reload from runtime.go, restricted to the state/spec/round effects
(mux and limit-listener updates carry no FSM state). -/
def reload (nextSpec : Option Spec) (listenOK : Bool) (r : Runtime) : Runtime :=
  match r.spec, nextSpec with
  | none, none => r
  | none, some ns => startServer listenOK { r with spec := some ns }
  | some _, none => { r with spec := none }
  | some s, some ns =>
    if needRestartServer s ns then
      startServer listenOK { r with spec := some ns }
    else { r with spec := some ns }

/-- One dispatch step of the fsm loop for a non-close event. -/
def handleEvent (r : Runtime) : Event → Runtime
  | Event.checkFailed ok => handleEventCheckFailed ok r
  | Event.serveFailed n e => handleEventServeFailed n e r
  | Event.reload ns ok => reload ns ok r
  | Event.close => { r with state := StateType.stateClosed }

/-- The fsm loop from runtime.go: process events in order; on eventClose,
run handleEventClose (which sets stateClosed) and return, leaving any
later events unprocessed. -/
def fsmRun (r : Runtime) : List Event → Runtime
  | [] => r
  | e :: rest =>
    match e with
    | Event.close => { r with state := StateType.stateClosed }
    | _ => fsmRun (handleEvent r e) rest

end HTTPServer


namespace Gateway

/-- Member status values of the underlying cluster package
(cluster.MemberAlive etc.). -/
inductive MemberStatus where
  | alive
  | suspect
  | failed
  | left
deriving DecidableEq, Repr

/-- The view of a cluster member used by gateway.go: node name, status and
the two node tags `group` and `mode` (both strings in Go; the gateway's
Mode type is a string with constants "Write", "Read" and ""). -/
structure Member where
  nodeName : String
  status : MemberStatus
  group : String
  mode : String
deriving DecidableEq, Repr

/-- groupsInCluster from gateway.go: walk the member snapshot in order,
collect each member's group tag the first time it is seen (groupsBook),
then sort.Strings the collected names.  Note: the walk does not look at
member status. -/
def groupsInCluster (members : List Member) : List String :=
  let groups := members.foldl
    (fun (acc : List String) m => if m.group ∈ acc then acc else acc ++ [m.group]) []
  List.insertionSort (· ≤ ·) groups

/-- Message-type header bytes.  Modelled from the spec: the MessageType
constants are declared in a gateway source file outside the provided
sources; §4.5 fixes the codes 1..11 in order querySeq, queryMember,
queryMembersList, queryGroup, operation, operationRelay, retrieve,
retrieveRelay, stat, statRelay, opLogPull. -/
def querySeqMessage : Nat := 1
def queryMemberMessage : Nat := 2
def queryMembersListMessage : Nat := 3
def queryGroupMessage : Nat := 4
def operationMessage : Nat := 5
def operationRelayMessage : Nat := 6
def retrieveMessage : Nat := 7
def retrieveRelayMessage : Nat := 8
def statMessage : Nat := 9
def statRelayMessage : Nat := 10
def opLogPullMessage : Nat := 11

/-- The handler goroutines dispatch can spawn for a request event. -/
inductive Handler where
  | handleQuerySequence
  | handleQueryMember
  | handleQueryMembersList
  | handleQueryGroup
  | handleOperation
  | handleOperationRelay
  | handleRetrieve
  | handleRetrieveRelay
  | handleStat
  | handleStatRelay
  | handleOPLogPull
deriving DecidableEq, Repr

/-- A cluster.RequestEvent as seen by dispatch: its payload bytes and
whether the event is already closed (arrived too late). -/
structure RequestEvent where
  requestPayload : List Nat
  closed : Bool
deriving DecidableEq, Repr

/-- The RequestEvent arm of dispatch in gateway.go: returns the handler
spawned as a fresh goroutine for the event, or none when the event is
dropped (empty payload, closed event, mode mismatch, or unknown message
type).  Dropped events never reach handleResp, so no response is sent for
them. -/
def dispatchRequestEvent (mode : String) (event : RequestEvent) : Option Handler :=
  if event.requestPayload.length = 0 then none
  else if event.closed then none
  else
    match event.requestPayload.head? with
    | none => none
    | some b =>
      if b = querySeqMessage then some Handler.handleQuerySequence
      else if b = queryMemberMessage then some Handler.handleQueryMember
      else if b = queryMembersListMessage then some Handler.handleQueryMembersList
      else if b = queryGroupMessage then some Handler.handleQueryGroup
      else if b = operationMessage then
        if mode = "Write" then some Handler.handleOperation else none
      else if b = operationRelayMessage then
        if mode = "Read" then some Handler.handleOperationRelay else none
      else if b = retrieveMessage then
        if mode = "Write" then some Handler.handleRetrieve else none
      else if b = retrieveRelayMessage then
        if mode = "Read" then some Handler.handleRetrieveRelay else none
      else if b = statMessage then some Handler.handleStat
      else if b = statRelayMessage then some Handler.handleStatRelay
      else if b = opLogPullMessage then some Handler.handleOPLogPull
      else none

/-- Modelled from the spec: the handler matching each message type in the
dispatch table of §4.5 (querySeq spawns handleQuerySequence, operation
spawns handleOperation, stat spawns handleStat, and so on through the
eleven message types; unknown codes match no handler).  dispatch is
claimed to spawn exactly this handler for each accepted message, so this
table is stated independently of dispatchRequestEvent and compared with
it. -/
def matchingHandler (b : Nat) : Option Handler :=
  if b = querySeqMessage then some Handler.handleQuerySequence
  else if b = queryMemberMessage then some Handler.handleQueryMember
  else if b = queryMembersListMessage then some Handler.handleQueryMembersList
  else if b = queryGroupMessage then some Handler.handleQueryGroup
  else if b = operationMessage then some Handler.handleOperation
  else if b = operationRelayMessage then some Handler.handleOperationRelay
  else if b = retrieveMessage then some Handler.handleRetrieve
  else if b = retrieveRelayMessage then some Handler.handleRetrieveRelay
  else if b = statMessage then some Handler.handleStat
  else if b = statRelayMessage then some Handler.handleStatRelay
  else if b = opLogPullMessage then some Handler.handleOPLogPull
  else none

/-- Effects-tracking state of a GatewayCluster for internalStop: the
stopped flag guarded by statusLock, and counters/flags for the shutdown
effects (closing stopChan, leaving and stopping the basis cluster,
closing the oplog). -/
structure GCStatus where
  stopped : Bool
  stopChanCloseCount : Nat
  leftBasis : Bool
  stoppedBasis : Bool
  oplogClosed : Bool
deriving DecidableEq, Repr

/-- internalStop from gateway.go.  The outcomes of the external calls
cluster.Leave, cluster.Stop and opLog.Close are oracles (some err =
failure).  On any failure the function returns that error early; the
stopped flag is set only after the oplog closed successfully. -/
def internalStop (s : GCStatus) (stopBasis : Bool)
    (leaveErr basisStopErr closeErr : Option String) : GCStatus × Option String :=
  if s.stopped then (s, some "already stopped")
  else
    let s1 := { s with stopChanCloseCount := s.stopChanCloseCount + 1 }
    let finish : GCStatus → GCStatus × Option String := fun s2 =>
      match closeErr with
      | some e => (s2, some e)
      | none => ({ s2 with oplogClosed := true, stopped := true }, none)
    if stopBasis then
      match leaveErr with
      | some e => (s1, some e)
      | none =>
        let s2 := { s1 with leftBasis := true }
        match basisStopErr with
        | some e => (s2, some e)
        | none => finish { s2 with stoppedBasis := true }
    else finish s1

/-- common.StrInSlice. -/
def strInSlice (s : String) (l : List String) : Bool := l.contains s

/-- The gateway cluster Config fields validated by NewGatewayCluster.
Durations are nanosecond counts (Go time.Duration). -/
structure Config where
  clusterGroup : String
  clusterMemberMode : String
  clusterMemberName : String
  peers : List String
  oplogMaxSeqGapToPull : Nat
  oplogPullMaxCountOnce : Nat
  oplogPullIntervalNs : Nat
  oplogPullTimeoutNs : Nat
deriving DecidableEq, Repr

/-- The validation prefix of NewGatewayCluster (gateway.go lines 64-97):
the error returned for a nil model, an invalid config, or an advertise
address among "127.0.0.1"/"localhost"/"0.0.0.0"; none when construction
proceeds past these checks.  `clusterHost` is option.ClusterHost, used as
both bind and advertise address.  OPLogPullTimeout.Seconds() < 10 is the
exact rational comparison ns < 10^10. -/
def newGatewayClusterCheck (modIsNil : Bool) (conf : Config)
    (clusterHost : String) : Option String :=
  if modIsNil then some "model is nil"
  else if conf.clusterGroup.length = 0 then some "empty group"
  else if conf.oplogMaxSeqGapToPull = 0 then
    some "oplog_max_seq_gap_to_pull must be greater then 0"
  else if conf.oplogPullMaxCountOnce = 0 then
    some "oplog_pull_max_count_once must be greater then 0"
  else if conf.oplogPullIntervalNs = 0 then
    some "oplog_pull_interval must be greater than 0"
  else if conf.oplogPullTimeoutNs < 10000000000 then
    some "oplog_pull_timeout must be greater than or equals to 10"
  else if strInSlice clusterHost ["127.0.0.1", "localhost", "0.0.0.0"] then
    some ("invalid advertise address " ++ clusterHost ++
      ", it should be reachable from peer")
  else none

/-- Follows the spec's words (§4.4, §7): an advertise address that is "a
loopback or unspecified address".  Loopback: the IPv4 block 127.0.0.0/8,
IPv6 ::1, and the name localhost; unspecified: 0.0.0.0 and ::. -/
def isLoopbackOrUnspecifiedSpec (addr : String) : Bool :=
  addr == "localhost" || addr.data.take 4 == "127.".data || addr == "::1" ||
    addr == "0.0.0.0" || addr == "::"

/-- One receive observed by recordResp: a response delivered by
future.Response() (`ok` true, carrying the responder name and a possibly
nil payload), a receive from the closed response channel (`ok` false,
i.e. the future timed out), or the stopChan firing. -/
inductive RecvEvent where
  | resp (name : String) (payload : Option (List Nat))
  | timeout
  | stop
deriving DecidableEq, Repr

/-- Why recordResp's loop ended. -/
inductive ExitReason where
  | countReached
  | stopped
deriving DecidableEq, Repr

/-- The response book: one entry per expected responder, none = pending. -/
abbrev RespBook := List (String × Option (List Nat))

/-- Book lookup (map access `membersRespBook[name]`): outer none =
name not a key (unexpected responder). -/
def lookupBook (book : RespBook) (name : String) : Option (Option (List Nat)) :=
  (book.find? (fun p => p.1 == name)).map Prod.snd

/-- Book update (map assignment). -/
def updateBook (book : RespBook) (name : String) (v : Option (List Nat)) : RespBook :=
  book.map (fun p => if p.1 == name then (p.1, v) else p)

/-- recordResp from gateway.go, driven by the schedule of receives.  The
loop runs while memberRespCount < len(book); each receive (response,
channel-closed, or stopChan) advances the schedule.  `wasted` counts the
receives that incremented memberRespCount without filling a pending slot:
channel-closed receives (timeout), responses from unexpected nodes, and
duplicate responses.  A nil response payload is stored as the empty
payload.  Returns none when the schedule runs out while the loop would
still block on a receive. -/
def recordResp : RespBook → Nat → Nat → List RecvEvent →
    Option (RespBook × Nat × Nat × ExitReason)
  | book, count, wasted, [] =>
    if count < book.length then none
    else some (book, count, wasted, ExitReason.countReached)
  | book, count, wasted, e :: rest =>
    if count < book.length then
      match e with
      | RecvEvent.stop => some (book, count, wasted, ExitReason.stopped)
      | RecvEvent.timeout => recordResp book (count + 1) (wasted + 1) rest
      | RecvEvent.resp name payload =>
        match lookupBook book name with
        | none => recordResp book (count + 1) (wasted + 1) rest
        | some (some _) => recordResp book (count + 1) (wasted + 1) rest
        | some none =>
          recordResp (updateBook book name (some (payload.getD [])))
            (count + 1) wasted rest
    else some (book, count, wasted, ExitReason.countReached)

/-- Number of non-null entries of a response book. -/
def filledCount (book : RespBook) : Nat :=
  book.countP (fun p => p.2.isSome)

end Gateway

namespace Sampler

/-- One duration segment: resolution (a Go time.Duration, i.e. a count of
nanoseconds) and slot count. -/
structure DurationSegment where
  resolution : Int
  slots : Nat
deriving DecidableEq, Repr

/-- time.Millisecond in nanoseconds. -/
def msNs : Int := 1000000

/-- The fixed segment table of the sampler. -/
def segments : List DurationSegment :=
  [⟨msNs, 500⟩, ⟨2 * msNs, 250⟩, ⟨4 * msNs, 250⟩, ⟨8 * msNs, 125⟩,
   ⟨16 * msNs, 125⟩, ⟨32 * msNs, 125⟩, ⟨64 * msNs, 125⟩, ⟨128 * msNs, 125⟩,
   ⟨256 * msNs, 125⟩, ⟨512 * msNs, 125⟩, ⟨1024 * msNs, 125⟩]

/-- Total slot count of a segment list. -/
def totalSlots : List DurationSegment → Nat
  | [] => 0
  | s :: rest => s.slots + totalSlots rest

/-- NewDurationSampler's length for the durations array: starts at 1 and
adds every segment's slot count (the extra slot is the final overflow
slot). -/
def newDurationSamplerSlots : Nat := 1 + totalSlots segments

/-- The index arithmetic of Update: walk the segments; in a segment s
with bound = resolution * slots, if d < bound - resolution/2 the walk
stops and the index advances by (d + resolution/2) / resolution,
otherwise d decreases by bound and the index advances by s.slots.  Go's
`/` on integers is truncated division, Int.tdiv. -/
def updateIdx : List DurationSegment → Int → Int → Int
  | [], _, idx => idx
  | s :: rest, d, idx =>
    let bound : Int := s.resolution * (s.slots : Int)
    if d < bound - s.resolution.tdiv 2 then
      idx + (d + s.resolution.tdiv 2).tdiv s.resolution
    else
      updateIdx rest (d - bound) (idx + (s.slots : Int))

/-- The slot index Update increments for duration d. -/
def bucketIdx (d : Int) : Int := updateIdx segments d 0

/-- The slot index as a Nat (used for bucket counting; for d ≥ 0 the
index is nonnegative). -/
def bucketOf (d : Int) : Nat := (bucketIdx d).toNat

/-- The percentiles list of Percentiles, in thousandths:
0.25, 0.5, 0.75, 0.95, 0.98, 0.99, 0.999. -/
def percentileThousandths : List Nat := [250, 500, 750, 950, 980, 990, 999]

/-- The inner `for p >= percentiles[pi]` loop of Percentiles: with the
accumulated slot count and the current slot's duration (in ms), emit the
slot duration for each leading pending percentile already reached.  The
Go float comparison count/total >= p is modelled exactly as rationals:
total ≠ 0 and p * total ≤ count * 1000 (for total = 0 the Go comparison
is NaN >= p, which is false). -/
def takeEmit (count total dms : Nat) : List Nat → List Nat × List Nat
  | [] => ([], [])
  | p :: ps =>
    if total ≠ 0 ∧ p * total ≤ count * 1000 then
      let r := takeEmit count total dms ps
      (dms :: r.1, r.2)
    else ([], p :: ps)

/-- The per-segment slot loop of Percentiles: iterate `fuel` remaining
slots of a segment starting at in-segment index i, consuming one entry
of `counts` per slot, accumulating into `acc`, emitting the value
d / time.Millisecond with d = base + resolution * i.  Returns the
emissions, remaining counts, accumulated count and pending
percentiles. -/
def scanSegment (res base : Int) (total : Nat) :
    Nat → Nat → List Nat → Nat → List Nat →
      List Nat × List Nat × Nat × List Nat
  | _, 0, counts, acc, percs => ([], counts, acc, percs)
  | i, fuel + 1, counts, acc, percs =>
    let acc' := acc + counts.headD 0
    let dms := ((base + res * (i : Int)).tdiv msNs).toNat
    let e := takeEmit acc' total dms percs
    match scanSegment res base total (i + 1) fuel counts.tail acc' e.2 with
    | (em, counts', acc'', percs') => (e.1 ++ em, counts', acc'', percs')

/-- The outer segment loop of Percentiles, with the trailing loop that
pads the remaining percentiles with the sentinel 9999999 after all
segments were scanned (the overflow slot is never read). -/
def scanSegments (total : Nat) :
    List DurationSegment → Int → List Nat → Nat → List Nat → List Nat
  | [], _, _, _, percs => percs.map (fun _ => 9999999)
  | s :: rest, base, counts, acc, percs =>
    match scanSegment s.resolution base total 0 s.slots counts acc percs with
    | (em, counts', acc', percs') =>
      em ++ scanSegments total rest (base + s.resolution * (s.slots : Int))
        counts' acc' percs'

/-- Percentiles from the sampler: `counts` holds the durations array in
slot order (2001 entries for the real sampler; the scan consumes the
first 2000 and never reads the final overflow slot), `total` the sample
count. -/
def percentiles (counts : List Nat) (total : Nat) : List Nat :=
  scanSegments total segments 0 counts 0 percentileThousandths

/-- The bucket counts produced by calling Update once per element of ds
on a fresh sampler (each call increments slot bucketOf d; order of the
calls is irrelevant to the final array). -/
def bucketCounts (ds : List Int) : List Nat :=
  (List.range newDurationSamplerSlots).map
    (fun j => ds.countP (fun d => bucketOf d == j))

/-- Full pipeline: record every duration of ds via Update on a fresh
sampler, then call Percentiles. -/
def samplerPercentiles (ds : List Int) : List Nat :=
  percentiles (bucketCounts ds) ds.length

/-- Follows the spec's words: the segment table's coverage, the sum of
resolution * slots over all segments (257000 ms). -/
def coverageNs : List DurationSegment → Int
  | [] => 0
  | s :: rest => s.resolution * (s.slots : Int) + coverageNs rest

/-- The exact cut below which Update assigns a duration to a scanned
slot: the coverage minus half of the final segment's resolution.
Durations at or beyond this cut land in the final overflow slot. -/
def overflowCutoff : List DurationSegment → Int
  | [] => 0
  | [s] => s.resolution * (s.slots : Int) - s.resolution.tdiv 2
  | s :: rest => s.resolution * (s.slots : Int) + overflowCutoff rest

/-- Resolution of the segment containing relative slot j. -/
def resOfSlot : List DurationSegment → Nat → Int
  | [], _ => 0
  | s :: rest, j =>
    if j < s.slots then s.resolution else resOfSlot rest (j - s.slots)

/-- Nominal duration of relative slot j (base plus resolution times the
in-segment index), in nanoseconds: the value Percentiles reports for a
percentile crossing in slot j. -/
def slotValNs : List DurationSegment → Int → Nat → Int
  | [], base, _ => base
  | s :: rest, base, j =>
    if j < s.slots then base + s.resolution * (j : Int)
    else slotValNs rest (base + s.resolution * (s.slots : Int)) (j - s.slots)

/-- Nondecreasing resolutions along the segment list. -/
def resMonoB : List DurationSegment → Bool
  | [] => true
  | [_] => true
  | s :: s' :: rest => (s.resolution ≤ s'.resolution) && resMonoB (s' :: rest)

/-- Positive, even resolutions (every Go resolution is a whole number of
microseconds times 1000, in particular even). -/
def resOkB : List DurationSegment → Bool
  | [] => true
  | s :: rest => (0 < s.resolution && s.resolution % 2 == 0) && resOkB rest

/-- The rank of the order statistic the p-th percentile selects from n
samples: the least m with m * 1000 ≥ p * n, i.e. ceil(p * n / 1000)
(p in thousandths). -/
def orderStatRank (p n : Nat) : Nat := (p * n + 999) / 1000

/-- The m-th smallest sample (1-based). -/
def nthSmallest (ds : List Int) (m : Nat) : Int :=
  (List.insertionSort (· ≤ ·) ds).getD (m - 1) 0

/-- Resolution of the first segment (0 for the empty list); used to state
the entry invariant of updateIdx. -/
def headRes : List DurationSegment → Int
  | [] => 0
  | s :: _ => s.resolution

/-- Positive, even resolutions and nonempty segments. -/
def segOkB : List DurationSegment → Bool
  | [] => true
  | s :: rest =>
    (0 < s.resolution && s.resolution % 2 == 0 && 0 < s.slots) && segOkB rest

/-- Every resolution is a whole number of milliseconds. -/
def msDivB : List DurationSegment → Bool
  | [] => true
  | s :: rest => (s.resolution % msNs == 0) && msDivB rest

/-- The crossing condition of Percentiles in exact arithmetic:
count/total >= p with p in thousandths (false for total = 0, matching
the Go NaN comparison). -/
abbrev crossCond (total acc p : Nat) : Prop := total ≠ 0 ∧ p * total ≤ acc * 1000

/-- The duration values (in ms) reported for the slots of one segment,
for in-segment indices i, i+1, ..., i+fuel-1. -/
def segmentVals (res base : Int) (i fuel : Nat) : List Nat :=
  (List.range' i fuel).map
    (fun (t : Nat) => ((base + res * (t : Int)).tdiv msNs).toNat)

/-- The reported duration values (in ms) of all scanned slots, in slot
order. -/
def slotValsMs : List DurationSegment → Int → List Nat
  | [], _ => []
  | s :: rest, base =>
    segmentVals s.resolution base 0 s.slots ++
      slotValsMs rest (base + s.resolution * (s.slots : Int))

/-- Flattened form of the nested Percentiles scan over (value, count)
pairs: returns the emitted values, the final accumulated count and the
pending percentiles. -/
def flatEmit (total : Nat) : List (Nat × Nat) → Nat → List Nat →
    List Nat × Nat × List Nat
  | [], acc, percs => ([], acc, percs)
  | (dms, c) :: rest, acc, percs =>
    let acc' := acc + c
    let e := takeEmit acc' total dms percs
    match flatEmit total rest acc' e.2 with
    | (em, acc'', percs') => (e.1 ++ em, acc'', percs')

/-- The value at which one percentile p first crosses: scan the (value,
count) pairs accumulating counts and return the value of the first pair
at which the crossing condition holds. -/
def firstCross (total p : Nat) : List (Nat × Nat) → Nat → Option Nat
  | [], _ => none
  | (dms, c) :: rest, acc =>
    if crossCond total (acc + c) p then some dms
    else firstCross total p rest (acc + c)

/-- Sum of the counts of a (value, count) pair list. -/
def sumSnd (l : List (Nat × Nat)) : Nat := (l.map Prod.snd).sum

end Sampler

namespace HTTPServer

theorem startServer_state_ne_closed (ok : Bool) (r : Runtime) :
    (startServer ok r).state ≠ StateType.stateClosed := by
  obtain ⟨sp, rn, st, er⟩ := r
  cases sp <;> simp [startServer] <;> split_ifs <;> simp

theorem handleEvent_ne_closed (r : Runtime) (e : Event)
    (hr : r.state ≠ StateType.stateClosed) (he : e ≠ Event.close) :
    (handleEvent r e).state ≠ StateType.stateClosed := by
  cases e with
  | checkFailed ok =>
    simp only [handleEvent, handleEventCheckFailed]
    split_ifs
    · exact startServer_state_ne_closed ok r
    · exact hr
  | serveFailed n e =>
    simp only [handleEvent, handleEventServeFailed]
    split_ifs
    · exact hr
    · simp
  | reload ns ok =>
    obtain ⟨sp, rn, st, er⟩ := r
    cases sp with
    | none =>
      cases ns with
      | none => exact hr
      | some v => exact startServer_state_ne_closed ok _
    | some s =>
      cases ns with
      | none => exact hr
      | some v =>
        by_cases h : needRestartServer s v
        · simpa [handleEvent, reload, h] using
            startServer_state_ne_closed ok ⟨some v, rn, st, er⟩
        · simpa [handleEvent, reload, h] using hr
  | close => exact absurd rfl he

/-- Claim C8: for every sequence of FSM events containing no Close event,
the runtime state never becomes Closed (so Closed arises only by
processing a Close event); and Close is terminal: the fsm loop handles
Close and exits, leaving any remaining events unprocessed. -/
theorem fsm_closed_only_by_close (events : List Event) (r : Runtime) :
    (r.state ≠ StateType.stateClosed → Event.close ∉ events →
      (fsmRun r events).state ≠ StateType.stateClosed) ∧
    (∀ rest, fsmRun r (Event.close :: rest) =
      { r with state := StateType.stateClosed }) := by
  constructor
  · induction events generalizing r with
    | nil => intro hr _; simpa [fsmRun] using hr
    | cons e rest ih =>
      intro hr hmem
      have he : e ≠ Event.close := by
        intro h; exact hmem (h ▸ List.mem_cons_self _ _)
      have hrest : Event.close ∉ rest := fun h => hmem (List.mem_cons_of_mem _ h)
      have hnext := handleEvent_ne_closed r e hr he
      cases e with
      | checkFailed ok => exact ih (handleEvent r (Event.checkFailed ok)) hnext hrest
      | serveFailed n err => exact ih (handleEvent r (Event.serveFailed n err)) hnext hrest
      | reload ns ok => exact ih (handleEvent r (Event.reload ns ok)) hnext hrest
      | close => exact absurd rfl he
  · intro rest; rfl

theorem fsm_closed_only_by_close_witness :
    (fsmRun ⟨none, 0, StateType.stateNil, ""⟩ [Event.serveFailed 0 "x"]).state ≠
      StateType.stateClosed ∧
    fsmRun ⟨none, 0, StateType.stateNil, ""⟩ [Event.close] =
      ⟨none, 0, StateType.stateClosed, ""⟩ := by
  have h := fsm_closed_only_by_close [Event.serveFailed 0 "x"]
    ⟨none, 0, StateType.stateNil, ""⟩
  exact ⟨h.1 (by decide) (by decide),
    (fsm_closed_only_by_close [] ⟨none, 0, StateType.stateNil, ""⟩).2 []⟩

/-- Claim C2: an eventServeFailed with roundNum strictly below the
runtime's current roundNum is a no-op (state and error unchanged); with
roundNum equal to the current one, the state becomes Failed and the error
is set to the event's error. -/
theorem serveFailed_stale_noop_current_fails (r : Runtime) (n : Nat) (e : String) :
    (n < r.roundNum → handleEventServeFailed n e r = r) ∧
    (n = r.roundNum →
      (handleEventServeFailed n e r).state = StateType.stateFailed ∧
      (handleEventServeFailed n e r).err = e) := by
  constructor
  · intro h
    simp [handleEventServeFailed, h]
  · intro h
    subst h
    simp [handleEventServeFailed]

theorem serveFailed_stale_noop_current_fails_witness :
    (handleEventServeFailed 0 "e1" ⟨none, 1, StateType.stateRunning, ""⟩ =
      ⟨none, 1, StateType.stateRunning, ""⟩) ∧
    (handleEventServeFailed 2 "e2" ⟨none, 2, StateType.stateRunning, ""⟩).state =
      StateType.stateFailed ∧
    (handleEventServeFailed 2 "e2" ⟨none, 2, StateType.stateRunning, ""⟩).err = "e2" := by
  refine ⟨(serveFailed_stale_noop_current_fails
    ⟨none, 1, StateType.stateRunning, ""⟩ 0 "e1").1 (by decide), ?_⟩
  exact (serveFailed_stale_noop_current_fails
    ⟨none, 2, StateType.stateRunning, ""⟩ 2 "e2").2 rfl

/-- Claim C3: needRestartServer returns false exactly when the two specs
agree on every field other than the six hot-reloadable ones
(maxConnections, cacheSize, xForwardedFor, tracing, ipFilter, rules),
i.e. they agree on port, https, http3, keepAlive and keepAliveTimeout. -/
theorem needRestartServer_false_iff (s ns : Spec) :
    needRestartServer s ns = false ↔
      (s.port = ns.port ∧ s.https = ns.https ∧ s.http3 = ns.http3 ∧
       s.keepAlive = ns.keepAlive ∧ s.keepAliveTimeout = ns.keepAliveTimeout) := by
  simp [needRestartServer, zeroHotFields, Spec.mk.injEq]

theorem needRestartServer_false_iff_witness :
    needRestartServer
      ⟨80, false, false, true, "60s", 100, 10, true, some 1, some 2, some [3]⟩
      ⟨80, false, false, true, "60s", 200, 20, false, none, none, none⟩ = false := by
  exact (needRestartServer_false_iff _ _).mpr (by decide)

end HTTPServer

namespace Gateway

/-- Claim C4: dispatch of a RequestEvent.  An empty payload or a closed
event spawns no handler (and thus no response is sent); Operation/Retrieve
at a Read-mode node and OperationRelay/RetrieveRelay at a Write-mode node
are dropped the same way; every other known message type spawns exactly
the handler the dispatch table matches to it (the spawned handler equals
matchingHandler of the first payload byte, and that is some handler) in a
fresh goroutine. -/
theorem dispatch_rules (mode : String) (payload : List Nat) (closed : Bool)
    (hmode : mode = "Write" ∨ mode = "Read") :
    (payload = [] → dispatchRequestEvent mode ⟨payload, closed⟩ = none) ∧
    (closed = true → dispatchRequestEvent mode ⟨payload, closed⟩ = none) ∧
    (∀ b rest, payload = b :: rest → closed = false →
      (((b = operationMessage ∨ b = retrieveMessage) ∧ mode = "Read") →
        dispatchRequestEvent mode ⟨payload, closed⟩ = none) ∧
      (((b = operationRelayMessage ∨ b = retrieveRelayMessage) ∧ mode = "Write") →
        dispatchRequestEvent mode ⟨payload, closed⟩ = none) ∧
      (b ∈ [querySeqMessage, queryMemberMessage, queryMembersListMessage,
            queryGroupMessage, operationMessage, operationRelayMessage,
            retrieveMessage, retrieveRelayMessage, statMessage,
            statRelayMessage, opLogPullMessage] →
        ¬((b = operationMessage ∨ b = retrieveMessage) ∧ mode = "Read") →
        ¬((b = operationRelayMessage ∨ b = retrieveRelayMessage) ∧ mode = "Write") →
        dispatchRequestEvent mode ⟨payload, closed⟩ = matchingHandler b ∧
        matchingHandler b ≠ none)) := by
  refine ⟨?_, ?_, ?_⟩
  · intro h; subst h; rfl
  · intro h; subst h; cases payload <;> rfl
  · intro b rest hp hc
    subst hp; subst hc
    refine ⟨?_, ?_, ?_⟩
    · rintro ⟨hb | hb, hm⟩ <;> subst hb <;> subst hm <;>
        simp [dispatchRequestEvent, querySeqMessage, queryMemberMessage,
          queryMembersListMessage, queryGroupMessage, operationMessage,
          operationRelayMessage, retrieveMessage, retrieveRelayMessage,
          statMessage, statRelayMessage, opLogPullMessage]
    · rintro ⟨hb | hb, hm⟩ <;> subst hb <;> subst hm <;>
        simp [dispatchRequestEvent, querySeqMessage, queryMemberMessage,
          queryMembersListMessage, queryGroupMessage, operationMessage,
          operationRelayMessage, retrieveMessage, retrieveRelayMessage,
          statMessage, statRelayMessage, opLogPullMessage]
    · intro hb h5 h6
      rcases hmode with hm | hm <;> subst hm <;>
        fin_cases hb <;>
        simp_all [dispatchRequestEvent, matchingHandler, querySeqMessage,
          queryMemberMessage, queryMembersListMessage, queryGroupMessage,
          operationMessage, operationRelayMessage, retrieveMessage,
          retrieveRelayMessage, statMessage, statRelayMessage,
          opLogPullMessage]

theorem dispatch_rules_witness :
    dispatchRequestEvent "Read" ⟨[operationMessage], false⟩ = none ∧
    (dispatchRequestEvent "Write" ⟨[statMessage], false⟩ =
        matchingHandler statMessage ∧
      matchingHandler statMessage ≠ none) := by
  constructor
  · exact ((dispatch_rules "Read" [operationMessage] false (Or.inr rfl)).2.2
      operationMessage [] rfl rfl).1 ⟨Or.inl rfl, rfl⟩
  · exact ((dispatch_rules "Write" [statMessage] false (Or.inl rfl)).2.2
      statMessage [] rfl rfl).2.2 (by decide) (by decide) (by decide)

theorem groupsFold_nodup (l : List Member) (acc : List String) (h : acc.Nodup) :
    (l.foldl (fun (acc : List String) m =>
      if m.group ∈ acc then acc else acc ++ [m.group]) acc).Nodup := by
  induction l generalizing acc with
  | nil => exact h
  | cons m rest ih =>
    simp only [List.foldl_cons]
    by_cases hm : m.group ∈ acc
    · rw [if_pos hm]; exact ih acc h
    · rw [if_neg hm]
      exact ih _ (by simp [List.nodup_append, h, hm])

theorem groupsFold_mem_src (l : List Member) (acc : List String) (g : String)
    (h : g ∈ l.foldl (fun (acc : List String) m =>
      if m.group ∈ acc then acc else acc ++ [m.group]) acc) :
    g ∈ acc ∨ ∃ m ∈ l, m.group = g := by
  induction l generalizing acc with
  | nil => exact Or.inl h
  | cons m rest ih =>
    simp only [List.foldl_cons] at h
    rcases ih _ h with hacc | ⟨m', hm', hg⟩
    · by_cases hm : m.group ∈ acc
      · rw [if_pos hm] at hacc; exact Or.inl hacc
      · rw [if_neg hm] at hacc
        rcases List.mem_append.mp hacc with h1 | h1
        · exact Or.inl h1
        · exact Or.inr ⟨m, List.mem_cons_self _ _, (List.mem_singleton.mp h1).symm⟩
    · exact Or.inr ⟨m', List.mem_cons_of_mem _ hm', hg⟩

theorem groupsFold_mono (l : List Member) (acc : List String) (x : String)
    (hx : x ∈ acc) :
    x ∈ l.foldl (fun (acc : List String) m =>
      if m.group ∈ acc then acc else acc ++ [m.group]) acc := by
  induction l generalizing acc with
  | nil => exact hx
  | cons m rest ih =>
    simp only [List.foldl_cons]
    by_cases hm : m.group ∈ acc
    · rw [if_pos hm]; exact ih acc hx
    · rw [if_neg hm]; exact ih _ (List.mem_append_left _ hx)

theorem groupsFold_complete (l : List Member) (acc : List String) (m : Member)
    (hm : m ∈ l) :
    m.group ∈ l.foldl (fun (acc : List String) m =>
      if m.group ∈ acc then acc else acc ++ [m.group]) acc := by
  induction l generalizing acc with
  | nil => exact absurd hm (List.not_mem_nil m)
  | cons m' rest ih =>
    simp only [List.foldl_cons]
    rcases List.mem_cons.mp hm with he | ht
    · subst he
      apply groupsFold_mono
      by_cases hmem : m.group ∈ acc
      · rw [if_pos hmem]; exact hmem
      · rw [if_neg hmem]; exact List.mem_append_right _ (List.mem_singleton_self _)
    · exact ih _ ht

/-- Claim C5 counterexample: for a snapshot with a single non-Alive
member, groupsInCluster still returns that member's group, so a returned
group need not have any Alive member. -/
theorem groupsInCluster_counterexample :
    groupsInCluster [⟨"n1", MemberStatus.failed, "g1", "Read"⟩] = ["g1"] ∧
    ¬ (∀ g ∈ groupsInCluster [⟨"n1", MemberStatus.failed, "g1", "Read"⟩],
        ∃ m ∈ [(⟨"n1", MemberStatus.failed, "g1", "Read"⟩ : Member)],
          m.status = MemberStatus.alive ∧ m.group = g) := by
  constructor
  · rfl
  · decide

/-- Claim C5 (amended): groupsInCluster returns the ascending-sorted,
duplicate-free list of the group names of all members of the snapshot,
regardless of member status (the walk does not filter on Alive). -/
theorem groupsInCluster_sorted_nodup_complete (members : List Member) :
    (groupsInCluster members).Sorted (· ≤ ·) ∧
    (groupsInCluster members).Nodup ∧
    (∀ g ∈ groupsInCluster members, ∃ m ∈ members, m.group = g) ∧
    (∀ m ∈ members, m.group ∈ groupsInCluster members) := by
  refine ⟨List.sorted_insertionSort _ _, ?_, ?_, ?_⟩
  · exact ((List.perm_insertionSort _ _).nodup_iff).mpr
      (groupsFold_nodup members [] List.nodup_nil)
  · intro g hg
    have hg' := (List.perm_insertionSort _ _).mem_iff.mp hg
    rcases groupsFold_mem_src members [] g hg' with h | h
    · exact absurd h (List.not_mem_nil g)
    · exact h
  · intro m hm
    exact (List.perm_insertionSort _ _).mem_iff.mpr
      (groupsFold_complete members [] m hm)

theorem groupsInCluster_sorted_nodup_complete_witness :
    ∃ m ∈ [(⟨"n2", MemberStatus.failed, "ga", "Read"⟩ : Member)], m.group = "ga" := by
  exact (groupsInCluster_sorted_nodup_complete
    [⟨"n2", MemberStatus.failed, "ga", "Read"⟩]).2.2.1 "ga" (by decide)

end Gateway

namespace Gateway

/-- Claim C6 counterexample: if the first Stop() fails partway (here
cluster.Leave errors), the stopped flag is not set; a second Stop() does
not return "already stopped" and re-runs the shutdown, closing stopChan a
second time. -/
theorem internalStop_counterexample :
    (internalStop ⟨false, 0, false, false, false⟩ true
        (some "leave failed") none none).2 = some "leave failed" ∧
    (internalStop (internalStop ⟨false, 0, false, false, false⟩ true
        (some "leave failed") none none).1 true none none none).2 ≠
      some "already stopped" ∧
    (internalStop (internalStop ⟨false, 0, false, false, false⟩ true
        (some "leave failed") none none).1 true none none
        none).1.stopChanCloseCount = 2 := by
  decide

/-- Claim C6 (amended): once internalStop has returned successfully
(Stop() is internalStop with stopBasis = true), any later call returns
the error "already stopped" and leaves the cluster state unchanged: no
second channel close, no cluster leave, no oplog close. -/
theorem internalStop_idempotent_after_success
    (s : GCStatus) (b : Bool) (e1 e2 e3 : Option String) (s' : GCStatus)
    (h : internalStop s b e1 e2 e3 = (s', none)) :
    ∀ (b' : Bool) (f1 f2 f3 : Option String),
      internalStop s' b' f1 f2 f3 = (s', some "already stopped") := by
  have hstop : s'.stopped = true := by
    by_cases hs : s.stopped = true
    · simp [internalStop, hs] at h
    · cases b <;> cases e1 <;> cases e2 <;> cases e3 <;>
        simp [internalStop, hs] at h <;> exact h ▸ rfl
  intro b' f1 f2 f3
  simp [internalStop, hstop]

theorem internalStop_idempotent_after_success_witness :
    internalStop ⟨true, 1, true, true, true⟩ true none none none =
      (⟨true, 1, true, true, true⟩, some "already stopped") :=
  internalStop_idempotent_after_success ⟨false, 0, false, false, false⟩
    true none none none ⟨true, 1, true, true, true⟩ (by decide)
    true none none none

/-- Claim C7 counterexample: "127.0.0.2" is a loopback address, yet
NewGatewayCluster's validation accepts it (the source only rejects the
three literals "127.0.0.1", "localhost", "0.0.0.0"), so construction does
not fail on it. -/
theorem advertise_check_counterexample :
    isLoopbackOrUnspecifiedSpec "127.0.0.2" = true ∧
    newGatewayClusterCheck false
      ⟨"group1", "Read", "node1", [], 5, 5, 1000000000, 10000000000⟩
      "127.0.0.2" = none := by
  constructor
  · decide
  · decide

/-- Claim C7 (amended): for a config passing the earlier validations,
NewGatewayCluster's validation fails exactly when the advertise address
is one of the three literals "127.0.0.1", "localhost", "0.0.0.0". -/
theorem advertise_check_amended (conf : Config) (host : String)
    (hgroup : conf.clusterGroup.length ≠ 0)
    (hgap : conf.oplogMaxSeqGapToPull ≠ 0)
    (hcount : conf.oplogPullMaxCountOnce ≠ 0)
    (hinterval : conf.oplogPullIntervalNs ≠ 0)
    (htimeout : 10000000000 ≤ conf.oplogPullTimeoutNs) :
    newGatewayClusterCheck false conf host ≠ none ↔
      host ∈ ["127.0.0.1", "localhost", "0.0.0.0"] := by
  have ht : ¬ conf.oplogPullTimeoutNs < 10000000000 := Nat.not_lt.mpr htimeout
  by_cases hmem : host ∈ ["127.0.0.1", "localhost", "0.0.0.0"]
  · have hc : strInSlice host ["127.0.0.1", "localhost", "0.0.0.0"] = true := by
      simpa [strInSlice] using hmem
    simp [newGatewayClusterCheck, hgroup, hgap, hcount, hinterval, ht, hc, hmem]
  · have hc : strInSlice host ["127.0.0.1", "localhost", "0.0.0.0"] = false := by
      simpa [strInSlice] using hmem
    simp [newGatewayClusterCheck, hgroup, hgap, hcount, hinterval, ht, hc, hmem]

theorem advertise_check_amended_witness :
    newGatewayClusterCheck false
      ⟨"group1", "Read", "node1", [], 5, 5, 1000000000, 10000000000⟩
      "127.0.0.1" ≠ none := by
  exact (advertise_check_amended
    ⟨"group1", "Read", "node1", [], 5, 5, 1000000000, 10000000000⟩
    "127.0.0.1" (by decide) (by decide) (by decide) (by decide)
    (by decide)).mpr (by decide)

end Gateway

namespace Gateway

theorem updateBook_length (book : RespBook) (name : String) (v : Option (List Nat)) :
    (updateBook book name v).length = book.length := by
  simp [updateBook]

theorem updateBook_keys (book : RespBook) (name : String) (v : Option (List Nat)) :
    (updateBook book name v).map Prod.fst = book.map Prod.fst := by
  unfold updateBook
  rw [List.map_map]
  apply List.map_congr_left
  intro p _
  by_cases h : p.1 == name <;> simp [h, Function.comp]

theorem updateBook_not_mem (book : RespBook) (name : String) (v : Option (List Nat))
    (h : name ∉ book.map Prod.fst) : updateBook book name v = book := by
  induction book with
  | nil => rfl
  | cons p rest ih =>
    rw [List.map_cons, List.mem_cons, not_or] at h
    have h1 : ¬ (p.1 == name) = true := by
      rw [beq_iff_eq]
      exact fun he => h.1 he.symm
    have hstep : updateBook (p :: rest) name v =
        (if (p.1 == name) = true then (p.1, v) else p) :: updateBook rest name v := rfl
    rw [hstep, if_neg h1, ih h.2]

theorem filledCount_updateBook (book : RespBook) (name : String) (pl : List Nat)
    (hk : (book.map Prod.fst).Nodup)
    (hl : lookupBook book name = some none) :
    filledCount (updateBook book name (some pl)) = filledCount book + 1 := by
  induction book with
  | nil => simp [lookupBook] at hl
  | cons p rest ih =>
    rw [List.map_cons] at hk
    obtain ⟨hk1, hk2⟩ := List.nodup_cons.mp hk
    by_cases hp : (p.1 == name) = true
    · have hpn : p.1 = name := by rwa [beq_iff_eq] at hp
      have hmem : name ∉ rest.map Prod.fst := hpn ▸ hk1
      have h2 : p.2 = none := by
        have hf : List.find? (fun q => q.1 == name) (p :: rest) = some p :=
          List.find?_cons_of_pos _ hp
        rw [lookupBook, hf] at hl
        simpa using hl
      have hstep : updateBook (p :: rest) name (some pl) =
          (if (p.1 == name) = true then (p.1, some pl) else p) ::
            updateBook rest name (some pl) := rfl
      rw [hstep, if_pos hp, updateBook_not_mem rest name _ hmem]
      simp [filledCount, List.countP_cons, h2]
    · have hf : List.find? (fun q => q.1 == name) (p :: rest) =
          List.find? (fun q => q.1 == name) rest :=
        List.find?_cons_of_neg _ hp
      have hl' : lookupBook rest name = some none := by
        rw [lookupBook, hf] at hl
        exact hl
      have hstep : updateBook (p :: rest) name (some pl) =
          (if (p.1 == name) = true then (p.1, some pl) else p) ::
            updateBook rest name (some pl) := rfl
      rw [hstep, if_neg hp]
      have := ih hk2 hl'
      simp only [filledCount, List.countP_cons] at this ⊢
      omega

theorem recordResp_conservation :
    ∀ (events : List RecvEvent) (book : RespBook) (count wasted : Nat)
      (book' : RespBook) (count' wasted' : Nat) (reason : ExitReason),
      (book.map Prod.fst).Nodup →
      recordResp book count wasted events = some (book', count', wasted', reason) →
      book'.length = book.length ∧
      filledCount book' + wasted' + count = filledCount book + wasted + count' ∧
      (reason = ExitReason.countReached → count' = max count book.length) := by
  intro events
  induction events with
  | nil =>
    intro book count wasted book' count' wasted' reason hk h
    by_cases hc : count < book.length
    · simp [recordResp, hc] at h
    · simp [recordResp, hc] at h
      obtain ⟨h1, h2, h3, h4⟩ := h
      subst h1; subst h2; subst h3; subst h4
      refine ⟨rfl, rfl, fun _ => ?_⟩
      omega
  | cons e rest ih =>
    intro book count wasted book' count' wasted' reason hk h
    by_cases hc : count < book.length
    · cases e with
      | stop =>
        simp [recordResp, hc] at h
        obtain ⟨h1, h2, h3, h4⟩ := h
        subst h1; subst h2; subst h3; subst h4
        exact ⟨rfl, rfl, fun hr => by cases hr⟩
      | timeout =>
        simp only [recordResp, if_pos hc] at h
        obtain ⟨hlen, hcons, hmax⟩ :=
          ih book (count + 1) (wasted + 1) book' count' wasted' reason hk h
        refine ⟨hlen, by omega, fun hr => ?_⟩
        have := hmax hr
        omega
      | resp name payload =>
        cases hl : lookupBook book name with
        | none =>
          simp only [recordResp, if_pos hc, hl] at h
          obtain ⟨hlen, hcons, hmax⟩ :=
            ih book (count + 1) (wasted + 1) book' count' wasted' reason hk h
          refine ⟨hlen, by omega, fun hr => ?_⟩
          have := hmax hr
          omega
        | some v =>
          cases v with
          | some old =>
            simp only [recordResp, if_pos hc, hl] at h
            obtain ⟨hlen, hcons, hmax⟩ :=
              ih book (count + 1) (wasted + 1) book' count' wasted' reason hk h
            refine ⟨hlen, by omega, fun hr => ?_⟩
            have := hmax hr
            omega
          | none =>
            simp only [recordResp, if_pos hc, hl] at h
            have hk2 : ((updateBook book name (some (payload.getD []))).map
                Prod.fst).Nodup := by
              rw [updateBook_keys]; exact hk
            obtain ⟨hlen, hcons, hmax⟩ :=
              ih _ (count + 1) wasted book' count' wasted' reason hk2 h
            rw [updateBook_length] at hlen
            rw [filledCount_updateBook book name _ hk hl] at hcons
            refine ⟨hlen, by omega, fun hr => ?_⟩
            have := hmax hr
            rw [updateBook_length] at this
            omega
    · simp [recordResp, hc] at h
      obtain ⟨h1, h2, h3, h4⟩ := h
      subst h1; subst h2; subst h3; subst h4
      refine ⟨rfl, rfl, fun _ => ?_⟩
      omega

/-- Claim C1 counterexample: with the book pre-initialized to null for
expected responders "A" and "B", a schedule of two responses from "A"
(the second a duplicate) makes recordResp return with "B" still null,
although no timeout was received and no shutdown was signaled: duplicate
(and unexpected/timeout) receives advance memberRespCount too. -/
theorem recordResp_counterexample :
    recordResp [("A", none), ("B", none)] 0 0
        [RecvEvent.resp "A" (some [1]), RecvEvent.resp "A" (some [2])] =
      some ([("A", some [1]), ("B", none)], 2, 1, ExitReason.countReached) ∧
    RecvEvent.timeout ∉
      [RecvEvent.resp "A" (some [1]), RecvEvent.resp "A" (some [2])] ∧
    RecvEvent.stop ∉
      [RecvEvent.resp "A" (some [1]), RecvEvent.resp "A" (some [2])] := by
  decide

/-- Claim C1 (amended): for a response book pre-initialized with one null
entry per expected responder, when recordResp returns, either every
expected member's slot holds a non-null payload, or shutdown (stopChan)
was signaled, or at least one consumed receive was wasted — a timeout
(closed response channel), a response from an unexpected node, or a
duplicate response. -/
theorem recordResp_coverage (events : List RecvEvent) (book book' : RespBook)
    (count' wasted' : Nat) (reason : ExitReason)
    (hkeys : (book.map Prod.fst).Nodup)
    (hinit : ∀ p ∈ book, p.2 = none)
    (h : recordResp book 0 0 events = some (book', count', wasted', reason)) :
    (∀ p ∈ book', p.2 ≠ none) ∨ reason = ExitReason.stopped ∨ 0 < wasted' := by
  obtain ⟨hlen, hcons, hmax⟩ :=
    recordResp_conservation events book 0 0 book' count' wasted' reason hkeys h
  have hfill0 : filledCount book = 0 :=
    List.countP_eq_zero.mpr (fun p hp => by simp [hinit p hp])
  cases reason with
  | stopped => exact Or.inr (Or.inl rfl)
  | countReached =>
    have hc : count' = book.length := by simpa using hmax rfl
    by_cases hw : wasted' = 0
    · left
      have hfull : filledCount book' = book'.length := by omega
      intro p hp
      have := List.countP_eq_length.mp hfull p hp
      simp only [Option.isSome_iff_exists] at this
      obtain ⟨x, hx⟩ := this
      simp [hx]
    · exact Or.inr (Or.inr (Nat.pos_of_ne_zero hw))

theorem recordResp_coverage_witness :
    (∀ p ∈ [("A", some ([7] : List Nat))], p.2 ≠ none) ∨
      ExitReason.countReached = ExitReason.stopped ∨ 0 < 0 := by
  exact recordResp_coverage [RecvEvent.resp "A" (some [7])] [("A", none)]
    [("A", some [7])] 1 0 ExitReason.countReached (by decide) (by decide)
    (by decide)

end Gateway

namespace Sampler

theorem half_twice (r : Int) (hpos : 0 < r) (heven : r % 2 = 0) :
    2 * r.tdiv 2 = r := by
  rw [Int.tdiv_eq_ediv (le_of_lt hpos) (by norm_num)]
  exact Int.mul_ediv_cancel' (Int.dvd_iff_emod_eq_zero.mpr heven)

theorem tdiv_nonpos_of_nonpos (a b : Int) (ha : a ≤ 0) (hb : 0 ≤ b) :
    a.tdiv b ≤ 0 := by
  have h1 : a = -(-a) := by ring
  rw [h1, Int.neg_tdiv]
  have := Int.tdiv_nonneg (by omega : (0:Int) ≤ -a) hb
  omega

theorem updateIdx_cons (s : DurationSegment) (rest : List DurationSegment)
    (d idx : Int) :
    updateIdx (s :: rest) d idx =
      if d < s.resolution * (s.slots : Int) - s.resolution.tdiv 2 then
        idx + (d + s.resolution.tdiv 2).tdiv s.resolution
      else updateIdx rest (d - s.resolution * (s.slots : Int))
        (idx + (s.slots : Int)) := rfl

theorem segOk_cons {s : DurationSegment} {rest : List DurationSegment}
    (h : segOkB (s :: rest) = true) :
    0 < s.resolution ∧ s.resolution % 2 = 0 ∧ 0 < s.slots ∧ segOkB rest = true := by
  simp only [segOkB, Bool.and_eq_true, decide_eq_true_eq, beq_iff_eq] at h
  exact ⟨h.1.1.1, h.1.1.2, h.1.2, h.2⟩

theorem resMono_cons {s s' : DurationSegment} {rest : List DurationSegment}
    (h : resMonoB (s :: s' :: rest) = true) :
    s.resolution ≤ s'.resolution ∧ resMonoB (s' :: rest) = true := by
  simp only [resMonoB, Bool.and_eq_true, decide_eq_true_eq] at h
  exact h

theorem updateIdx_le (segs : List DurationSegment) :
    ∀ (d idx : Int), segOkB segs = true →
      updateIdx segs d idx ≤ idx + (totalSlots segs : Int) := by
  induction segs with
  | nil => intro d idx _; simp [updateIdx, totalSlots]
  | cons s rest ih =>
    intro d idx hok
    obtain ⟨hres, _, _, hok'⟩ := segOk_cons hok
    simp only [updateIdx]
    split_ifs with h
    · have hq : (d + s.resolution.tdiv 2).tdiv s.resolution ≤ (s.slots : Int) := by
        by_cases ha : 0 ≤ d + s.resolution.tdiv 2
        · rw [Int.tdiv_eq_ediv ha (le_of_lt hres)]
          have hlt : d + s.resolution.tdiv 2 < (s.slots : Int) * s.resolution := by
            rw [mul_comm]; omega
          exact le_of_lt ((Int.ediv_lt_iff_lt_mul hres).mpr hlt)
        · have h1 := tdiv_nonpos_of_nonpos (d + s.resolution.tdiv 2)
            s.resolution (by omega) (le_of_lt hres)
          have h2 : (0:Int) ≤ (s.slots : Int) := by positivity
          omega
      have h3 : (0:Int) ≤ (totalSlots rest : Int) := by positivity
      simp only [totalSlots]
      push_cast
      omega
    · have h4 := ih (d - s.resolution * (s.slots : Int)) (idx + (s.slots : Int)) hok'
      simp only [totalSlots]
      push_cast at h4 ⊢
      omega

theorem updateIdx_ge (segs : List DurationSegment) :
    ∀ (d idx : Int), segOkB segs = true → resMonoB segs = true →
      0 ≤ 2 * d + headRes segs → idx ≤ updateIdx segs d idx := by
  induction segs with
  | nil => intro d idx _ _ _; simp [updateIdx]
  | cons s rest ih =>
    intro d idx hok hmono hd
    obtain ⟨hres, heven, _, hok'⟩ := segOk_cons hok
    simp only [updateIdx]
    split_ifs with h
    · have h2 : 2 * s.resolution.tdiv 2 = s.resolution := half_twice _ hres heven
      simp only [headRes] at hd
      have ha : 0 ≤ d + s.resolution.tdiv 2 := by omega
      have := Int.tdiv_nonneg ha (le_of_lt hres)
      omega
    · cases rest with
      | nil =>
        simp only [updateIdx]
        have : (0:Int) ≤ (s.slots : Int) := by positivity
        omega
      | cons s' rest' =>
        obtain ⟨hle, hmono'⟩ := resMono_cons hmono
        have h2 : 2 * s.resolution.tdiv 2 = s.resolution := half_twice _ hres heven
        simp only [headRes] at hd
        have hd' : 0 ≤ 2 * (d - s.resolution * (s.slots : Int)) +
            headRes (s' :: rest') := by
          simp only [headRes]
          omega
        have hrec := ih (d - s.resolution * (s.slots : Int)) (idx + (s.slots : Int))
          hok' hmono' hd'
        have hnn : (0:Int) ≤ (s.slots : Int) := by positivity
        omega

theorem overflowCutoff_pos (segs : List DurationSegment) :
    segs ≠ [] → segOkB segs = true → 0 < overflowCutoff segs := by
  induction segs with
  | nil => intro h; exact absurd rfl h
  | cons s rest ih =>
    intro _ hok
    obtain ⟨hres, heven, hslots, hok'⟩ := segOk_cons hok
    have h2 : 2 * s.resolution.tdiv 2 = s.resolution := half_twice _ hres heven
    have hb : s.resolution * 1 ≤ s.resolution * (s.slots : Int) :=
      mul_le_mul_of_nonneg_left (by exact_mod_cast hslots) (le_of_lt hres)
    cases rest with
    | nil =>
      simp only [overflowCutoff]
      omega
    | cons s' rest' =>
      have := ih (by simp) hok'
      simp only [overflowCutoff] at this ⊢
      omega

theorem updateIdx_overflow (segs : List DurationSegment) :
    ∀ (d idx : Int), segOkB segs = true → overflowCutoff segs ≤ d →
      updateIdx segs d idx = idx + (totalSlots segs : Int) := by
  induction segs with
  | nil => intro d idx _ _; simp [updateIdx, totalSlots]
  | cons s rest ih =>
    intro d idx hok hcut
    obtain ⟨hres, heven, hslots, hok'⟩ := segOk_cons hok
    have h2 : 2 * s.resolution.tdiv 2 = s.resolution := half_twice _ hres heven
    cases rest with
    | nil =>
      simp only [overflowCutoff] at hcut
      simp only [updateIdx, totalSlots]
      rw [if_neg (by omega)]
      simp [updateIdx]
    | cons s' rest' =>
      have hpos := overflowCutoff_pos (s' :: rest') (by simp) hok'
      simp only [overflowCutoff] at hcut
      have htd : 0 ≤ s.resolution.tdiv 2 := Int.tdiv_nonneg (le_of_lt hres) (by norm_num)
      rw [updateIdx_cons, if_neg (by omega)]
      rw [ih (d - s.resolution * (s.slots : Int)) (idx + (s.slots : Int)) hok'
        (by omega)]
      simp only [totalSlots]
      push_cast
      ring

/-- Claim C10: NewDurationSampler sizes the durations array at 2001
entries (one more than the sum of all segments' slots); for every
nonnegative duration d, the slot index computed by Update satisfies
0 ≤ index ≤ 2000, so the increment is in bounds; durations at or beyond
the table's coverage land in the final overflow slot 2000; and for a
negative duration the computed index can be negative (-10 ms gives
index -9), so nonnegativity is a required precondition. -/
theorem update_index_bounds (d : Int) :
    newDurationSamplerSlots = 2001 ∧
    (0 ≤ d → 0 ≤ bucketIdx d ∧ bucketIdx d ≤ 2000) ∧
    (coverageNs segments ≤ d → bucketIdx d = 2000) ∧
    bucketIdx (-(10 * msNs)) = -9 := by
  refine ⟨by decide, fun hd => ⟨?_, ?_⟩, fun hc => ?_, by decide⟩
  · have hh : headRes segments = 1000000 := rfl
    have := updateIdx_ge segments d 0 (by decide) (by decide) (by rw [hh]; omega)
    simpa [bucketIdx] using this
  · have := updateIdx_le segments d 0 (by decide)
    have ht : totalSlots segments = 2000 := by decide
    rw [ht] at this
    simpa [bucketIdx] using this
  · have hcc : overflowCutoff segments ≤ coverageNs segments := by decide
    have := updateIdx_overflow segments d 0 (by decide) (by omega)
    have ht : totalSlots segments = 2000 := by decide
    rw [ht] at this
    simpa [bucketIdx] using this

theorem update_index_bounds_witness :
    (0 ≤ bucketIdx (5 * msNs) ∧ bucketIdx (5 * msNs) ≤ 2000) ∧
    bucketIdx (600000 * msNs) = 2000 := by
  exact ⟨(update_index_bounds (5 * msNs)).2.1 (by decide),
         (update_index_bounds (600000 * msNs)).2.2.1 (by decide)⟩

end Sampler

namespace Sampler

theorem updateIdx_mono (segs : List DurationSegment) :
    ∀ (d₁ d₂ idx : Int), segOkB segs = true → resMonoB segs = true →
      0 ≤ 2 * d₁ + headRes segs → d₁ ≤ d₂ →
      updateIdx segs d₁ idx ≤ updateIdx segs d₂ idx := by
  induction segs with
  | nil => intro d₁ d₂ idx _ _ _ _; simp [updateIdx]
  | cons s rest ih =>
    intro d₁ d₂ idx hok hmono hd hle
    obtain ⟨hres, heven, hslots, hok'⟩ := segOk_cons hok
    have h2 : 2 * s.resolution.tdiv 2 = s.resolution := half_twice _ hres heven
    simp only [headRes] at hd
    rw [updateIdx_cons, updateIdx_cons]
    by_cases h1 : d₁ < s.resolution * (s.slots : Int) - s.resolution.tdiv 2
    · rw [if_pos h1]
      have ha1 : 0 ≤ d₁ + s.resolution.tdiv 2 := by omega
      by_cases hb2 : d₂ < s.resolution * (s.slots : Int) - s.resolution.tdiv 2
      · rw [if_pos hb2]
        rw [Int.tdiv_eq_ediv ha1 (le_of_lt hres),
          Int.tdiv_eq_ediv (by omega) (le_of_lt hres)]
        have := Int.ediv_le_ediv hres
          (show d₁ + s.resolution.tdiv 2 ≤ d₂ + s.resolution.tdiv 2 by omega)
        omega
      · rw [if_neg hb2]
        have hq : (d₁ + s.resolution.tdiv 2).tdiv s.resolution ≤ (s.slots : Int) := by
          rw [Int.tdiv_eq_ediv ha1 (le_of_lt hres)]
          have hlt : d₁ + s.resolution.tdiv 2 < (s.slots : Int) * s.resolution := by
            rw [mul_comm]; omega
          exact le_of_lt ((Int.ediv_lt_iff_lt_mul hres).mpr hlt)
        have hge : idx + (s.slots : Int) ≤
            updateIdx rest (d₂ - s.resolution * (s.slots : Int))
              (idx + (s.slots : Int)) := by
          cases rest with
          | nil => simp [updateIdx]
          | cons s' rest' =>
            obtain ⟨hle', hmono'⟩ := resMono_cons hmono
            exact updateIdx_ge (s' :: rest') _ _ hok' hmono'
              (by simp only [headRes]; omega)
        omega
    · rw [if_neg h1, if_neg (by omega)]
      cases rest with
      | nil => simp [updateIdx]
      | cons s' rest' =>
        obtain ⟨hle', hmono'⟩ := resMono_cons hmono
        exact ih _ _ _ hok' hmono' (by simp only [headRes]; omega) (by omega)

theorem updateIdx_lt_of_lt_cutoff (segs : List DurationSegment) :
    ∀ (d idx : Int), segOkB segs = true → resMonoB segs = true →
      0 ≤ 2 * d + headRes segs → d < overflowCutoff segs →
      updateIdx segs d idx < idx + (totalSlots segs : Int) := by
  induction segs with
  | nil =>
    intro d idx _ _ hd hcut
    simp only [headRes] at hd
    simp only [overflowCutoff] at hcut
    omega
  | cons s rest ih =>
    intro d idx hok hmono hd hcut
    obtain ⟨hres, heven, hslots, hok'⟩ := segOk_cons hok
    have h2 : 2 * s.resolution.tdiv 2 = s.resolution := half_twice _ hres heven
    simp only [headRes] at hd
    rw [updateIdx_cons]
    split_ifs with h1
    · have ha : 0 ≤ d + s.resolution.tdiv 2 := by omega
      have hq : (d + s.resolution.tdiv 2).tdiv s.resolution < (s.slots : Int) := by
        rw [Int.tdiv_eq_ediv ha (le_of_lt hres)]
        have hlt : d + s.resolution.tdiv 2 < (s.slots : Int) * s.resolution := by
          rw [mul_comm]; omega
        exact (Int.ediv_lt_iff_lt_mul hres).mpr hlt
      have h3 : (0:Int) ≤ (totalSlots rest : Int) := by positivity
      simp only [totalSlots]
      push_cast
      omega
    · cases rest with
      | nil =>
        simp only [overflowCutoff] at hcut
        omega
      | cons s' rest' =>
        obtain ⟨hle', hmono'⟩ := resMono_cons hmono
        simp only [overflowCutoff] at hcut
        have := ih (d - s.resolution * (s.slots : Int)) (idx + (s.slots : Int))
          hok' hmono' (by simp only [headRes]; omega) (by omega)
        simp only [totalSlots] at this ⊢
        push_cast at this ⊢
        omega

theorem updateIdx_shift (segs : List DurationSegment) :
    ∀ (d idx : Int), updateIdx segs d idx = idx + updateIdx segs d 0 := by
  induction segs with
  | nil => intro d idx; simp [updateIdx]
  | cons s rest ih =>
    intro d idx
    rw [updateIdx_cons, updateIdx_cons]
    split_ifs with h
    · omega
    · rw [ih _ (idx + (s.slots : Int)), ih _ ((0:Int) + (s.slots : Int))]
      omega

theorem slotVal_close (segs : List DurationSegment) :
    ∀ (d base : Int), segOkB segs = true → resMonoB segs = true →
      0 ≤ 2 * d + headRes segs →
      updateIdx segs d 0 < (totalSlots segs : Int) →
      2 * (slotValNs segs base ((updateIdx segs d 0).toNat) - (base + d)) ≤
          resOfSlot segs ((updateIdx segs d 0).toNat) ∧
      2 * ((base + d) - slotValNs segs base ((updateIdx segs d 0).toNat)) ≤
          resOfSlot segs ((updateIdx segs d 0).toNat) := by
  induction segs with
  | nil =>
    intro d base _ _ hd hlt
    simp only [headRes] at hd
    simp only [totalSlots, updateIdx] at hlt
    omega
  | cons s rest ih =>
    intro d base hok hmono hd hlt
    obtain ⟨hres, heven, hslots, hok'⟩ := segOk_cons hok
    have h2 : 2 * s.resolution.tdiv 2 = s.resolution := half_twice _ hres heven
    simp only [headRes] at hd
    by_cases h1 : d < s.resolution * (s.slots : Int) - s.resolution.tdiv 2
    · -- the walk stops in this segment
      have hstep : updateIdx (s :: rest) d 0 =
          (d + s.resolution.tdiv 2).tdiv s.resolution := by
        rw [updateIdx_cons, if_pos h1]; ring
      have ha : 0 ≤ d + s.resolution.tdiv 2 := by omega
      have hje : (d + s.resolution.tdiv 2).tdiv s.resolution =
          (d + s.resolution.tdiv 2) / s.resolution :=
        Int.tdiv_eq_ediv ha (le_of_lt hres)
      have hjnn : 0 ≤ (d + s.resolution.tdiv 2).tdiv s.resolution :=
        Int.tdiv_nonneg ha (le_of_lt hres)
      have hjlt : (d + s.resolution.tdiv 2).tdiv s.resolution < (s.slots : Int) := by
        rw [hje]
        have hlt2 : d + s.resolution.tdiv 2 < (s.slots : Int) * s.resolution := by
          rw [mul_comm]; omega
        exact (Int.ediv_lt_iff_lt_mul hres).mpr hlt2
      set j : Int := (d + s.resolution.tdiv 2).tdiv s.resolution with hjdef
      have hjt : ((updateIdx (s :: rest) d 0).toNat : Int) = j := by
        rw [hstep]; exact Int.toNat_of_nonneg hjnn
      have hjts : (updateIdx (s :: rest) d 0).toNat < s.slots := by
        omega
      have hsv : slotValNs (s :: rest) base ((updateIdx (s :: rest) d 0).toNat) =
          base + s.resolution * j := by
        simp only [slotValNs, if_pos hjts, hjt]
      have hrs : resOfSlot (s :: rest) ((updateIdx (s :: rest) d 0).toNat) =
          s.resolution := by
        simp only [resOfSlot, if_pos hjts]
      rw [hsv, hrs]
      -- s.resolution * j = a - a % s.resolution for a := d + res/2
      have hdm := Int.ediv_add_emod (d + s.resolution.tdiv 2) s.resolution
      have hm1 := Int.emod_nonneg (d + s.resolution.tdiv 2) (ne_of_gt hres)
      have hm2 := Int.emod_lt_of_pos (d + s.resolution.tdiv 2) hres
      rw [hje]
      omega
    · -- the walk falls through to the rest
      have hstep : updateIdx (s :: rest) d 0 =
          (s.slots : Int) + updateIdx rest (d - s.resolution * (s.slots : Int)) 0 := by
        rw [updateIdx_cons, if_neg h1,
          updateIdx_shift rest _ ((0:Int) + (s.slots : Int))]
        ring
      cases rest with
      | nil =>
        exfalso
        have hz : updateIdx (s :: ([] : List DurationSegment)) d 0 = (s.slots : Int) := by
          rw [hstep]; rfl
        simp only [totalSlots] at hlt
        rw [hz] at hlt
        push_cast at hlt
        omega
      | cons s' rest' =>
        obtain ⟨hle', hmono'⟩ := resMono_cons hmono
        have hd' : 0 ≤ 2 * (d - s.resolution * (s.slots : Int)) +
            headRes (s' :: rest') := by simp only [headRes]; omega
        have hj'nn : 0 ≤ updateIdx (s' :: rest') (d - s.resolution * (s.slots : Int)) 0 :=
          updateIdx_ge (s' :: rest') _ 0 hok' hmono' hd'
        have hj'lt : updateIdx (s' :: rest') (d - s.resolution * (s.slots : Int)) 0 <
            (totalSlots (s' :: rest') : Int) := by
          simp only [totalSlots] at hlt ⊢
          push_cast at hlt ⊢
          omega
        have hts : (updateIdx (s :: s' :: rest') d 0).toNat =
            s.slots + (updateIdx (s' :: rest') (d - s.resolution * (s.slots : Int)) 0).toNat := by
          omega
        have hnotlt : ¬ (updateIdx (s :: s' :: rest') d 0).toNat < s.slots := by
          omega
        have hsv : slotValNs (s :: s' :: rest') base
              ((updateIdx (s :: s' :: rest') d 0).toNat) =
            slotValNs (s' :: rest') (base + s.resolution * (s.slots : Int))
              ((updateIdx (s' :: rest') (d - s.resolution * (s.slots : Int)) 0).toNat) := by
          rw [slotValNs, if_neg hnotlt, hts]
          congr 1
          omega
        have hrs : resOfSlot (s :: s' :: rest')
              ((updateIdx (s :: s' :: rest') d 0).toNat) =
            resOfSlot (s' :: rest')
              ((updateIdx (s' :: rest') (d - s.resolution * (s.slots : Int)) 0).toNat) := by
          rw [resOfSlot, if_neg hnotlt, hts]
          congr 1
          omega
        rw [hsv, hrs]
        have := ih (d - s.resolution * (s.slots : Int))
          (base + s.resolution * (s.slots : Int)) hok' hmono' hd' hj'lt
        constructor
        · have h3 := this.1
          omega
        · have h3 := this.2
          omega

end Sampler

namespace Sampler

theorem takeEmit_spec (count total dms : Nat) (percs : List Nat) :
    takeEmit count total dms percs =
      ((percs.takeWhile (fun p => decide (crossCond total count p))).map
          (fun _ => dms),
       percs.dropWhile (fun p => decide (crossCond total count p))) := by
  induction percs with
  | nil => rfl
  | cons p ps ih =>
    by_cases hc : crossCond total count p
    · simp [takeEmit, hc, List.takeWhile_cons, List.dropWhile_cons, ih]
    · simp [takeEmit, hc, List.takeWhile_cons, List.dropWhile_cons]

theorem flatEmit_append (total : Nat) (l₁ : List (Nat × Nat)) :
    ∀ (l₂ : List (Nat × Nat)) (acc : Nat) (percs : List Nat),
      flatEmit total (l₁ ++ l₂) acc percs =
        ((flatEmit total l₁ acc percs).1 ++
           (flatEmit total l₂ (flatEmit total l₁ acc percs).2.1
             (flatEmit total l₁ acc percs).2.2).1,
         (flatEmit total l₂ (flatEmit total l₁ acc percs).2.1
           (flatEmit total l₁ acc percs).2.2).2.1,
         (flatEmit total l₂ (flatEmit total l₁ acc percs).2.1
           (flatEmit total l₁ acc percs).2.2).2.2) := by
  induction l₁ with
  | nil => intro l₂ acc percs; simp [flatEmit]
  | cons pr rest ih =>
    intro l₂ acc percs
    obtain ⟨dms, c⟩ := pr
    simp only [List.cons_append, flatEmit]
    simp only [List.append_eq]
    rw [ih]
    rcases hr : flatEmit total rest (acc + c) (takeEmit (acc + c) total dms percs).2
      with ⟨em1, acc1, percs1⟩
    rcases hr2 : flatEmit total l₂ acc1 percs1 with ⟨em2, acc2, percs2⟩
    simp [hr, hr2, List.append_assoc]

theorem scanSegment_eq (res base : Int) (total : Nat) :
    ∀ (fuel i : Nat) (counts : List Nat) (acc : Nat) (percs : List Nat),
      fuel ≤ counts.length →
      scanSegment res base total i fuel counts acc percs =
        ((flatEmit total ((segmentVals res base i fuel).zip (counts.take fuel))
            acc percs).1,
         counts.drop fuel,
         (flatEmit total ((segmentVals res base i fuel).zip (counts.take fuel))
            acc percs).2.1,
         (flatEmit total ((segmentVals res base i fuel).zip (counts.take fuel))
            acc percs).2.2) := by
  intro fuel
  induction fuel with
  | zero => intro i counts acc percs _; simp [scanSegment, segmentVals, flatEmit]
  | succ f ih =>
    intro i counts acc percs hlen
    cases counts with
    | nil => simp at hlen
    | cons c cs =>
      have hsv : segmentVals res base i (f + 1) =
          ((base + res * (i : Int)).tdiv msNs).toNat ::
            segmentVals res base (i + 1) f := by
        simp [segmentVals, List.range'_succ]
      rw [hsv]
      simp only [scanSegment, List.take_succ_cons, List.drop_succ_cons,
        List.zip_cons_cons, flatEmit, List.headD, List.tail_cons]
      rw [ih (i + 1) cs (acc + c) _ (by simpa using hlen)]
      rcases hr : flatEmit total ((segmentVals res base (i + 1) f).zip (cs.take f))
          (acc + c)
          (takeEmit (acc + c) total ((base + res * (i : Int)).tdiv msNs).toNat percs).2
        with ⟨em1, acc1, percs1⟩
      have hz : List.zipWith Prod.mk (segmentVals res base (i + 1) f) (List.take f cs) =
          (segmentVals res base (i + 1) f).zip (List.take f cs) := rfl
      rw [hz, hr]

theorem zip_append_split {α β : Type} (A : List α) :
    ∀ (B : List α) (C : List β),
      (A ++ B).zip C = A.zip (C.take A.length) ++ B.zip (C.drop A.length) := by
  induction A with
  | nil => intro B C; simp
  | cons a A' ih =>
    intro B C
    cases C with
    | nil => simp [List.zip_nil_right]
    | cons c C' => simp [List.zip_cons_cons, ih]

theorem segmentVals_length (res base : Int) (i fuel : Nat) :
    (segmentVals res base i fuel).length = fuel := by
  unfold segmentVals
  rw [List.length_map, List.length_range']

theorem slotValsMs_length (segs : List DurationSegment) :
    ∀ base : Int, (slotValsMs segs base).length = totalSlots segs := by
  induction segs with
  | nil => intro base; rfl
  | cons s rest ih =>
    intro base
    simp [slotValsMs, totalSlots, segmentVals_length, ih]

theorem scanSegments_eq (total : Nat) (segs : List DurationSegment) :
    ∀ (base : Int) (counts : List Nat) (acc : Nat) (percs : List Nat),
      totalSlots segs ≤ counts.length →
      scanSegments total segs base counts acc percs =
        (flatEmit total ((slotValsMs segs base).zip counts) acc percs).1 ++
          ((flatEmit total ((slotValsMs segs base).zip counts) acc percs).2.2).map
            (fun _ => 9999999) := by
  induction segs with
  | nil => intro base counts acc percs _; simp [scanSegments, slotValsMs, flatEmit]
  | cons s rest ih =>
    intro base counts acc percs hlen
    simp only [totalSlots] at hlen
    have hslen : s.slots ≤ counts.length := by omega
    have hrlen : totalSlots rest ≤ (counts.drop s.slots).length := by
      simp [List.length_drop]
      omega
    rcases hx : scanSegment s.resolution base total 0 s.slots counts acc percs
      with ⟨em, counts', acc', percs'⟩
    have hx2 := scanSegment_eq s.resolution base total s.slots 0 counts acc percs hslen
    rw [hx] at hx2
    simp only [Prod.mk.injEq] at hx2
    obtain ⟨h1, h2, h3, h4⟩ := hx2
    subst h1; subst h2; subst h3; subst h4
    simp only [scanSegments, hx]
    rw [ih (base + s.resolution * (s.slots : Int)) (counts.drop s.slots) _ _ hrlen]
    have hsplit : (slotValsMs (s :: rest) base).zip counts =
        (segmentVals s.resolution base 0 s.slots).zip (counts.take s.slots) ++
          (slotValsMs rest (base + s.resolution * (s.slots : Int))).zip
            (counts.drop s.slots) := by
      have := zip_append_split (segmentVals s.resolution base 0 s.slots)
        (slotValsMs rest (base + s.resolution * (s.slots : Int))) counts
      simpa [slotValsMs, segmentVals_length] using this
    rw [hsplit, flatEmit_append]
    simp [List.append_assoc]

end Sampler

namespace Sampler

theorem dropWhile_fail (total acc : Nat) (percs : List Nat) :
    percs.Sorted (· ≤ ·) →
    ∀ p ∈ percs.dropWhile (fun p => decide (crossCond total acc p)),
      ¬ crossCond total acc p := by
  induction percs with
  | nil => intro _ p hp; simp at hp
  | cons q ps ih =>
    intro hsort p hp
    by_cases hq : crossCond total acc q
    · rw [List.dropWhile_cons_of_pos (by simpa using hq)] at hp
      exact ih (List.sorted_cons.mp hsort).2 p hp
    · rw [List.dropWhile_cons_of_neg (by simpa using hq)] at hp
      rcases List.mem_cons.mp hp with he | ht
      · subst he; exact hq
      · intro hcross
        have hqp : q ≤ p := (List.sorted_cons.mp hsort).1 p ht
        exact hq ⟨hcross.1, le_trans (Nat.mul_le_mul_right total hqp) hcross.2⟩

theorem flatEmit_firstCross (total : Nat) (pairs : List (Nat × Nat)) :
    ∀ (acc : Nat) (percs : List Nat),
      percs.Sorted (· ≤ ·) →
      (∀ p ∈ percs, ¬ crossCond total acc p) →
      (flatEmit total pairs acc percs).1 ++
          ((flatEmit total pairs acc percs).2.2).map (fun _ => 9999999) =
        percs.map (fun p => (firstCross total p pairs acc).getD 9999999) := by
  induction pairs with
  | nil =>
    intro acc percs _ _
    simp [flatEmit, firstCross]
  | cons pr rest ih =>
    intro acc percs hsort hfail
    obtain ⟨dms, c⟩ := pr
    rw [show flatEmit total ((dms, c) :: rest) acc percs =
        (let e := takeEmit (acc + c) total dms percs
         match flatEmit total rest (acc + c) e.2 with
         | (em, acc'', percs') => (e.1 ++ em, acc'', percs')) from rfl]
    rw [takeEmit_spec]
    rcases hr : flatEmit total rest (acc + c)
        (percs.dropWhile (fun p => decide (crossCond total (acc + c) p)))
      with ⟨em1, acc1, percs1⟩
    simp only []
    have hdsort : (percs.dropWhile
        (fun p => decide (crossCond total (acc + c) p))).Sorted (· ≤ ·) :=
      hsort.sublist (List.dropWhile_sublist _)
    have hdfail := dropWhile_fail total (acc + c) percs hsort
    have hih := ih (acc + c)
      (percs.dropWhile (fun p => decide (crossCond total (acc + c) p)))
      hdsort hdfail
    rw [hr] at hih
    simp only [] at hih
    have hsplit := List.takeWhile_append_dropWhile
      (p := fun p => decide (crossCond total (acc + c) p)) (l := percs)
    conv_rhs => rw [← hsplit]
    rw [List.map_append]
    have htake : (percs.takeWhile
          (fun p => decide (crossCond total (acc + c) p))).map
        (fun p => (firstCross total p ((dms, c) :: rest) acc).getD 9999999) =
      (percs.takeWhile
          (fun p => decide (crossCond total (acc + c) p))).map (fun _ => dms) := by
      apply List.map_congr_left
      intro p hp
      have hc : crossCond total (acc + c) p := by
        simpa using List.mem_takeWhile_imp hp
      simp only [firstCross]
      rw [if_pos hc]
      rfl
    have hdrop : (percs.dropWhile
          (fun p => decide (crossCond total (acc + c) p))).map
        (fun p => (firstCross total p ((dms, c) :: rest) acc).getD 9999999) =
      (percs.dropWhile
          (fun p => decide (crossCond total (acc + c) p))).map
        (fun p => (firstCross total p rest (acc + c)).getD 9999999) := by
      apply List.map_congr_left
      intro p hp
      have hc := hdfail p hp
      simp only [firstCross]
      rw [if_neg hc]
    rw [htake, hdrop, ← hih]
    rw [List.append_assoc, hr]

theorem firstCross_eq_some (total p : Nat) (pairs : List (Nat × Nat)) :
    ∀ (acc : Nat) (j : Nat) (hj : j < pairs.length),
      (∀ j', j' < j → ¬ crossCond total (acc + sumSnd (pairs.take (j' + 1))) p) →
      crossCond total (acc + sumSnd (pairs.take (j + 1))) p →
      firstCross total p pairs acc = some (pairs.get ⟨j, hj⟩).1 := by
  induction pairs with
  | nil => intro acc j hj _ _; simp at hj
  | cons pr rest ih =>
    intro acc j hj hfail hcross
    obtain ⟨dms, c⟩ := pr
    cases j with
    | zero =>
      have hc : crossCond total (acc + c) p := by
        simpa [sumSnd] using hcross
      simp only [firstCross]
      rw [if_pos hc]
      rfl
    | succ j' =>
      have h0 : ¬ crossCond total (acc + c) p := by
        have := hfail 0 (Nat.succ_pos j')
        simpa [sumSnd] using this
      simp only [firstCross]
      rw [if_neg h0]
      have hj'' : j' < rest.length := by simpa using hj
      have := ih (acc + c) j' hj''
        (fun t ht => by
          have := hfail (t + 1) (by omega)
          simpa [sumSnd, List.take_succ_cons, Nat.add_assoc] using this)
        (by simpa [sumSnd, List.take_succ_cons, Nat.add_assoc] using hcross)
      simpa using this

theorem firstCross_eq_none (total p : Nat) (pairs : List (Nat × Nat)) :
    ∀ (acc : Nat),
      (∀ j, j < pairs.length →
        ¬ crossCond total (acc + sumSnd (pairs.take (j + 1))) p) →
      firstCross total p pairs acc = none := by
  induction pairs with
  | nil => intro acc _; rfl
  | cons pr rest ih =>
    intro acc hfail
    obtain ⟨dms, c⟩ := pr
    have h0 : ¬ crossCond total (acc + c) p := by
      have := hfail 0 (Nat.succ_pos rest.length)
      simpa [sumSnd] using this
    simp only [firstCross]
    rw [if_neg h0]
    exact ih (acc + c) (fun t ht => by
      have := hfail (t + 1) (by simp only [List.length_cons]; omega)
      simpa [sumSnd, List.take_succ_cons, Nat.add_assoc] using this)

end Sampler

namespace Sampler

theorem rank_le_iff (p total c : Nat) :
    p * total ≤ c * 1000 ↔ orderStatRank p total ≤ c := by
  unfold orderStatRank
  have hdm := Nat.div_add_mod (p * total + 999) 1000
  have hm : (p * total + 999) % 1000 < 1000 := Nat.mod_lt _ (by norm_num)
  omega

theorem countP_lt_add_eq (D : List Int) (k : Nat) :
    D.countP (fun d => decide (bucketOf d < k)) +
      D.countP (fun d => bucketOf d == k) =
    D.countP (fun d => decide (bucketOf d < k + 1)) := by
  induction D with
  | nil => rfl
  | cons d D' ih =>
    simp only [List.countP_cons]
    have hsplit : (if decide (bucketOf d < k) = true then 1 else 0) +
        (if (bucketOf d == k) = true then 1 else 0) =
        (if decide (bucketOf d < k + 1) = true then 1 else 0) := by
      by_cases h1 : bucketOf d < k
      · have h2 : ¬ bucketOf d = k := by omega
        have h3 : bucketOf d < k + 1 := by omega
        simp [h1, h2, h3]
      · by_cases h2 : bucketOf d = k
        · have h3 : bucketOf d < k + 1 := by omega
          simp [h1, h2, h3]
        · have h3 : ¬ bucketOf d < k + 1 := by omega
          simp [h1, h2, h3]
    omega

theorem sum_range_countP (D : List Int) (k : Nat) :
    ((List.range k).map (fun j => D.countP (fun d => bucketOf d == j))).sum =
      D.countP (fun d => decide (bucketOf d < k)) := by
  induction k with
  | zero => simp
  | succ k ih =>
    rw [List.range_succ, List.map_append, List.sum_append]
    simp only [List.map_cons, List.map_nil, List.sum_cons, List.sum_nil]
    rw [ih, ← countP_lt_add_eq]
    omega

theorem bucketCounts_length (D : List Int) : (bucketCounts D).length = 2001 := by
  unfold bucketCounts
  rw [List.length_map, List.length_range]
  decide

theorem bucketCounts_take_sum (D : List Int) (k : Nat)
    (hk : k ≤ newDurationSamplerSlots) :
    ((bucketCounts D).take k).sum = D.countP (fun d => decide (bucketOf d < k)) := by
  unfold bucketCounts
  rw [← List.map_take, List.take_range, min_eq_left hk]
  exact sum_range_countP D k

theorem countP_lt_succ_eq_le (D : List Int) (j : Nat) :
    D.countP (fun d => decide (bucketOf d < j + 1)) =
      D.countP (fun d => decide (bucketOf d ≤ j)) := by
  simp only [Nat.lt_succ_iff]

theorem sorted_countP_bounds (S : List Int) (hs : S.Sorted (· ≤ ·)) (i : Nat)
    (hi : i < S.length) :
    i + 1 ≤ S.countP (fun a => decide (a ≤ S.getD i 0)) ∧
    S.countP (fun a => decide (a < S.getD i 0)) ≤ i := by
  generalize hg : S.getD i 0 = x
  have hxe : x = S[i] := by rw [← hg]; exact List.getD_eq_getElem S 0 hi
  constructor
  · have h1 : S.countP (fun a => decide (a ≤ x)) =
        (S.take (i + 1)).countP (fun a => decide (a ≤ x)) +
        (S.drop (i + 1)).countP (fun a => decide (a ≤ x)) := by
      conv_lhs => rw [← List.take_append_drop (i + 1) S]
      rw [List.countP_append]
    have hlen : (S.take (i + 1)).length = i + 1 := by
      rw [List.length_take]
      omega
    have h2 : (S.take (i + 1)).countP (fun a => decide (a ≤ x)) =
        (S.take (i + 1)).length := by
      rw [List.countP_eq_length]
      intro a ha
      obtain ⟨t, ht, rfl⟩ := List.mem_iff_getElem.mp ha
      rw [List.getElem_take]
      have htle : t ≤ i := by
        rw [hlen] at ht
        omega
      have hrel := List.Sorted.rel_get_of_le hs
        (a := ⟨t, by omega⟩) (b := ⟨i, hi⟩) (by simpa using htle)
      simp only [List.get_eq_getElem] at hrel
      simp only [decide_eq_true_eq, hxe]
      exact hrel
    omega
  · have h1 : S.countP (fun a => decide (a < x)) =
        (S.take i).countP (fun a => decide (a < x)) +
        (S.drop i).countP (fun a => decide (a < x)) := by
      conv_lhs => rw [← List.take_append_drop i S]
      rw [List.countP_append]
    have h2 : (S.take i).countP (fun a => decide (a < x)) ≤ i := by
      calc (S.take i).countP (fun a => decide (a < x)) ≤
          (S.take i).length := List.countP_le_length _
        _ ≤ i := by rw [List.length_take]; omega
    have h3 : (S.drop i).countP (fun a => decide (a < x)) = 0 := by
      rw [List.countP_eq_zero]
      intro a ha
      obtain ⟨t, ht, rfl⟩ := List.mem_iff_getElem.mp ha
      rw [List.getElem_drop]
      have hit : i + t < S.length := by
        rw [List.length_drop] at ht
        omega
      have hrel := List.Sorted.rel_get_of_le hs
        (a := ⟨i, hi⟩) (b := ⟨i + t, hit⟩) (by simp)
      simp only [List.get_eq_getElem] at hrel
      simp only [hxe, decide_eq_true_eq]
      omega
    omega

theorem resOfSlot_nonneg (segs : List DurationSegment) :
    ∀ j, segOkB segs = true → 0 ≤ resOfSlot segs j := by
  induction segs with
  | nil => intro j _; simp [resOfSlot]
  | cons s rest ih =>
    intro j hok
    obtain ⟨hres, _, _, hok'⟩ := segOk_cons hok
    simp only [resOfSlot]
    split_ifs
    · exact le_of_lt hres
    · exact ih _ hok'

theorem slotValsMs_getD_mul (segs : List DurationSegment) :
    ∀ (base : Int) (j : Nat), j < totalSlots segs →
      segOkB segs = true → msDivB segs = true → msNs ∣ base → 0 ≤ base →
      ((slotValsMs segs base).getD j 0 : Int) * msNs = slotValNs segs base j := by
  induction segs with
  | nil => intro base j hj _ _ _ _; simp [totalSlots] at hj
  | cons s rest ih =>
    intro base j hj hok hdiv hbd hbn
    obtain ⟨hres, heven, hslots, hok'⟩ := segOk_cons hok
    have hdiv' : s.resolution % msNs = 0 ∧ msDivB rest = true := by
      simpa [msDivB, Bool.and_eq_true] using hdiv
    have hresdvd : msNs ∣ s.resolution := Int.dvd_iff_emod_eq_zero.mpr hdiv'.1
    have hmsn : (0:Int) < msNs := by norm_num [msNs]
    have hlen : (segmentVals s.resolution base 0 s.slots).length = s.slots :=
      segmentVals_length _ _ _ _
    by_cases hjs : j < s.slots
    · have hgd : (slotValsMs (s :: rest) base).getD j 0 =
          (segmentVals s.resolution base 0 s.slots).getD j 0 := by
        simp only [slotValsMs]
        exact List.getD_append _ _ _ _ (by omega)
      have hjlen : j < (segmentVals s.resolution base 0 s.slots).length := by omega
      have hval : (segmentVals s.resolution base 0 s.slots).getD j 0 =
          ((base + s.resolution * (j : Int)).tdiv msNs).toNat := by
        rw [List.getD_eq_getElem _ _ hjlen]
        unfold segmentVals
        rw [List.getElem_map, List.getElem_range']
        simp
      set v : Int := base + s.resolution * (j : Int) with hvdef
      have hv0 : 0 ≤ v := by
        have : 0 ≤ s.resolution * (j : Int) :=
          mul_nonneg (le_of_lt hres) (by positivity)
        omega
      have hvd : msNs ∣ v := by
        exact dvd_add hbd (Dvd.dvd.mul_right hresdvd _)
      have hsv : slotValNs (s :: rest) base j = v := by
        simp only [slotValNs, if_pos hjs]
      rw [hgd, hval, hsv]
      rw [Int.tdiv_eq_ediv hv0 (le_of_lt hmsn)]
      rw [Int.toNat_of_nonneg (Int.ediv_nonneg hv0 (le_of_lt hmsn))]
      exact Int.ediv_mul_cancel hvd
    · have hgd : (slotValsMs (s :: rest) base).getD j 0 =
          (slotValsMs rest (base + s.resolution * (s.slots : Int))).getD
            (j - s.slots) 0 := by
        simp only [slotValsMs]
        rw [List.getD_append_right _ _ _ _ (by omega)]
        rw [hlen]
      have hsv : slotValNs (s :: rest) base j =
          slotValNs rest (base + s.resolution * (s.slots : Int)) (j - s.slots) := by
        simp only [slotValNs, if_neg hjs]
      have hbd' : msNs ∣ base + s.resolution * (s.slots : Int) :=
        dvd_add hbd (Dvd.dvd.mul_right hresdvd _)
      have hbn' : 0 ≤ base + s.resolution * (s.slots : Int) := by
        have : 0 ≤ s.resolution * (s.slots : Int) :=
          mul_nonneg (le_of_lt hres) (by positivity)
        omega
      have hj' : j - s.slots < totalSlots rest := by
        simp only [totalSlots] at hj
        omega
      rw [hgd, hsv]
      exact ih _ _ hj' hok' hdiv'.2 hbd' hbn'

end Sampler

namespace Sampler

theorem sumSnd_take_zip (A : List Nat) :
    ∀ (B : List Nat) (k : Nat), k ≤ A.length → k ≤ B.length →
      sumSnd ((A.zip B).take k) = (B.take k).sum := by
  induction A with
  | nil =>
    intro B k h1 _
    simp only [List.length_nil, Nat.le_zero] at h1
    subst h1
    simp [sumSnd]
  | cons a A' ih =>
    intro B k h1 h2
    cases B with
    | nil =>
      simp only [List.length_nil, Nat.le_zero] at h2
      subst h2
      simp [sumSnd]
    | cons b B' =>
      cases k with
      | zero => simp [sumSnd]
      | succ k' =>
        simp only [List.zip_cons_cons, List.take_succ_cons, sumSnd,
          List.map_cons, List.sum_cons]
        have := ih B' k' (by simpa using h1) (by simpa using h2)
        simp only [sumSnd] at this
        omega

theorem bucketOf_mono (d₁ d₂ : Int) (h0 : 0 ≤ d₁) (hle : d₁ ≤ d₂) :
    bucketOf d₁ ≤ bucketOf d₂ := by
  have hh : headRes segments = 1000000 := rfl
  have hm := updateIdx_mono segments d₁ d₂ 0 (by decide) (by decide)
    (by rw [hh]; omega) hle
  have hg := updateIdx_ge segments d₁ 0 (by decide) (by decide)
    (by rw [hh]; omega)
  unfold bucketOf bucketIdx
  omega

theorem lt_of_bucketOf_lt (d x : Int) (hd : 0 ≤ d) (hx : 0 ≤ x)
    (h : bucketOf d < bucketOf x) : d < x := by
  by_contra hc
  exact absurd (bucketOf_mono x d hx (by omega)) (by omega)

theorem pairs_length (D : List Int) :
    ((slotValsMs segments 0).zip (bucketCounts D)).length = 2000 := by
  rw [List.length_zip, slotValsMs_length, bucketCounts_length]
  decide

theorem pairs_cum (D : List Int) (j : Nat) (hj : j < 2000) :
    sumSnd (((slotValsMs segments 0).zip (bucketCounts D)).take (j + 1)) =
      D.countP (fun d => decide (bucketOf d ≤ j)) := by
  have h1 : j + 1 ≤ (slotValsMs segments 0).length := by
    rw [slotValsMs_length]
    have : totalSlots segments = 2000 := by decide
    omega
  have h2 : j + 1 ≤ (bucketCounts D).length := by
    rw [bucketCounts_length]
    omega
  rw [sumSnd_take_zip _ _ _ h1 h2]
  rw [bucketCounts_take_sum D (j + 1)
    (by rw [show newDurationSamplerSlots = 2001 from by decide]; omega)]
  exact countP_lt_succ_eq_le D j

end Sampler

namespace Sampler

/-- Claim C9 (amended): for every nonempty multiset of nonnegative
durations recorded via Update on a fresh DurationSampler, Percentiles
returns seven values (P25, P50, P75, P95, P98, P99, P999, in
milliseconds); for the k-th percentile p, with x the ceil(p*n/1000)-th
smallest sample: when x lies below the overflow cutoff (the table's
coverage minus half the final segment's resolution, i.e. 256,488 ms) the
reported value is within one segment resolution of x; when x lies at or
beyond the cutoff (even though possibly within the table's nominal
coverage of 257,000 ms) the sentinel 9,999,999 ms is reported, because
Update put x in the overflow slot that Percentiles never scans. -/
theorem percentiles_within_resolution (D : List Int) (hne : D ≠ [])
    (hpos : ∀ d ∈ D, 0 ≤ d) :
    (samplerPercentiles D).length = 7 ∧
    ∀ (k p : Nat) (x : Int) (v : Nat), k < 7 →
      p = percentileThousandths.getD k 0 →
      x = nthSmallest D (orderStatRank p D.length) →
      v = (samplerPercentiles D).getD k 0 →
      ((x < overflowCutoff segments →
          (v : Int) * msNs - x ≤ resOfSlot segments (bucketOf x) ∧
          x - (v : Int) * msNs ≤ resOfSlot segments (bucketOf x)) ∧
        (overflowCutoff segments ≤ x → v = 9999999)) := by
  have hn1 : 1 ≤ D.length := List.length_pos.mpr hne
  have hn0 : D.length ≠ 0 := by omega
  have hh : headRes segments = 1000000 := rfl
  have hlen0 : totalSlots segments ≤ (bucketCounts D).length := by
    rw [bucketCounts_length]; decide
  have hsorted : percentileThousandths.Sorted (· ≤ ·) := by decide
  have hfail0 : ∀ q ∈ percentileThousandths, ¬ crossCond D.length 0 q := by
    intro q hq hcr
    obtain ⟨hq0, hqle⟩ := hcr
    have hq1 : 1 ≤ q := by fin_cases hq <;> decide
    have hz : q * D.length = 0 := by omega
    rcases Nat.mul_eq_zero.mp hz with h | h
    · omega
    · exact hq0 h
  have hmain : samplerPercentiles D = percentileThousandths.map
      (fun q => (firstCross D.length q
        ((slotValsMs segments 0).zip (bucketCounts D)) 0).getD 9999999) := by
    unfold samplerPercentiles percentiles
    rw [scanSegments_eq D.length segments 0 (bucketCounts D) 0
      percentileThousandths hlen0]
    exact flatEmit_firstCross D.length
      ((slotValsMs segments 0).zip (bucketCounts D)) 0
      percentileThousandths hsorted hfail0
  have hlen7 : (samplerPercentiles D).length = 7 := by
    rw [hmain, List.length_map]
    rfl
  refine ⟨hlen7, ?_⟩
  intro k p x v hk hpe hxe hve
  have hk7 : k < percentileThousandths.length := by
    simpa [percentileThousandths] using hk
  have hpmem : p ∈ percentileThousandths := by
    rw [hpe, List.getD_eq_getElem _ _ hk7]
    exact List.getElem_mem _
  have hpb : 250 ≤ p ∧ p ≤ 999 := by
    fin_cases hpmem <;> exact ⟨by norm_num, by norm_num⟩
  have hv : v = (firstCross D.length p
      ((slotValsMs segments 0).zip (bucketCounts D)) 0).getD 9999999 := by
    rw [hve, hmain]
    have hk7m : k < (percentileThousandths.map
        (fun q => (firstCross D.length q
          ((slotValsMs segments 0).zip (bucketCounts D)) 0).getD 9999999)).length := by
      rw [List.length_map]; exact hk7
    rw [List.getD_eq_getElem _ _ hk7m, List.getElem_map,
      hpe, List.getD_eq_getElem _ _ hk7]
  set m := orderStatRank p D.length with hmdef
  have hm1 : 1 ≤ m := by
    have hpn : 250 * 1 ≤ p * D.length := Nat.mul_le_mul hpb.1 hn1
    have hdm := Nat.div_add_mod (p * D.length + 999) 1000
    have hmod : (p * D.length + 999) % 1000 < 1000 := Nat.mod_lt _ (by norm_num)
    rw [hmdef]
    unfold orderStatRank
    omega
  have hm2 : m ≤ D.length := by
    have hpn : p * D.length ≤ 999 * D.length := Nat.mul_le_mul_right _ hpb.2
    have hdm := Nat.div_add_mod (p * D.length + 999) 1000
    have hmod : (p * D.length + 999) % 1000 < 1000 := Nat.mod_lt _ (by norm_num)
    rw [hmdef]
    unfold orderStatRank
    omega
  have hSsort : (List.insertionSort (· ≤ ·) D).Sorted (· ≤ ·) :=
    List.sorted_insertionSort (· ≤ ·) D
  have hperm : List.Perm (List.insertionSort (· ≤ ·) D) D :=
    List.perm_insertionSort _ D
  have hSlen : (List.insertionSort (· ≤ ·) D).length = D.length := hperm.length_eq
  have hxS : x = (List.insertionSort (· ≤ ·) D).getD (m - 1) 0 := by
    rw [hxe]; rfl
  have hmx : m - 1 < (List.insertionSort (· ≤ ·) D).length := by omega
  have hxmem : x ∈ D := by
    rw [hxS, List.getD_eq_getElem _ _ hmx]
    exact hperm.mem_iff.mp (List.getElem_mem _)
  have hx0 : 0 ≤ x := hpos x hxmem
  obtain ⟨hOS1, hOS2⟩ := sorted_countP_bounds
    (List.insertionSort (· ≤ ·) D) hSsort (m - 1) hmx
  rw [← hxS] at hOS1 hOS2
  have hD1 : m ≤ D.countP (fun a => decide (a ≤ x)) := by
    rw [← hperm.countP_eq]
    omega
  have hD2 : D.countP (fun a => decide (a < x)) ≤ m - 1 := by
    rw [← hperm.countP_eq]
    omega
  have hcum_lt : ∀ j, j < bucketOf x →
      D.countP (fun d => decide (bucketOf d ≤ j)) ≤ m - 1 := by
    intro j hj
    calc D.countP (fun d => decide (bucketOf d ≤ j)) ≤
        D.countP (fun a => decide (a < x)) := by
          apply List.countP_mono_left
          intro d hd hdj
          simp only [decide_eq_true_eq] at hdj ⊢
          exact lt_of_bucketOf_lt d x (hpos d hd) hx0 (by omega)
      _ ≤ m - 1 := hD2
  have hcum_ge : m ≤ D.countP (fun d => decide (bucketOf d ≤ bucketOf x)) := by
    calc m ≤ D.countP (fun a => decide (a ≤ x)) := hD1
      _ ≤ D.countP (fun d => decide (bucketOf d ≤ bucketOf x)) := by
          apply List.countP_mono_left
          intro d hd hdx
          simp only [decide_eq_true_eq] at hdx ⊢
          exact bucketOf_mono d x (hpos d hd) hdx
  have hcross_iff : ∀ j, j < 2000 →
      (crossCond D.length (0 + sumSnd
          ((((slotValsMs segments 0).zip (bucketCounts D))).take (j + 1))) p ↔
        m ≤ D.countP (fun d => decide (bucketOf d ≤ j))) := by
    intro j hj
    rw [Nat.zero_add, pairs_cum D j hj]
    constructor
    · rintro ⟨_, hle⟩
      have := (rank_le_iff p D.length _).mp hle
      omega
    · intro hle
      refine ⟨hn0, (rank_le_iff p D.length _).mpr ?_⟩
      omega
  constructor
  · -- x below the overflow cutoff
    intro hxcut
    have hbxlt : bucketIdx x < 2000 := by
      have h1 := updateIdx_lt_of_lt_cutoff segments x 0 (by decide) (by decide)
        (by rw [hh]; omega) hxcut
      rw [show totalSlots segments = 2000 from by decide] at h1
      simpa [bucketIdx] using h1
    have hbxge : 0 ≤ bucketIdx x := by
      have h1 := updateIdx_ge segments x 0 (by decide) (by decide)
        (by rw [hh]; omega)
      simpa [bucketIdx] using h1
    have hbx2000 : bucketOf x < 2000 := by
      unfold bucketOf
      omega
    have hjlen : bucketOf x <
        ((slotValsMs segments 0).zip (bucketCounts D)).length := by
      rw [pairs_length]; exact hbx2000
    have hfc := firstCross_eq_some D.length p
      ((slotValsMs segments 0).zip (bucketCounts D)) 0 (bucketOf x) hjlen
      (fun j' hj' hcr => by
        have hcum := hcum_lt j' (by omega)
        have := (hcross_iff j' (by omega)).mp hcr
        omega)
      ((hcross_iff (bucketOf x) hbx2000).mpr hcum_ge)
    have hvallen : bucketOf x < (slotValsMs segments 0).length := by
      rw [slotValsMs_length, show totalSlots segments = 2000 from by decide]
      exact hbx2000
    have hget : ((((slotValsMs segments 0).zip (bucketCounts D))).get
          ⟨bucketOf x, hjlen⟩).1 =
        (slotValsMs segments 0).getD (bucketOf x) 0 := by
      rw [List.get_eq_getElem, List.getElem_zip]
      exact (List.getD_eq_getElem _ _ hvallen).symm
    rw [hfc] at hv
    simp only [Option.getD_some] at hv
    rw [hget] at hv
    have hvm : (v : Int) * msNs = slotValNs segments 0 (bucketOf x) := by
      rw [hv]
      exact slotValsMs_getD_mul segments 0 (bucketOf x)
        (by rw [show totalSlots segments = 2000 from by decide]; exact hbx2000)
        (by decide) (by decide) (dvd_zero msNs) le_rfl
    have hnom := slotVal_close segments x 0 (by decide) (by decide)
      (by rw [hh]; omega)
      (by rw [show totalSlots segments = 2000 from by decide]
          exact_mod_cast hbxlt)
    have hbeq : (updateIdx segments x 0).toNat = bucketOf x := rfl
    rw [hbeq] at hnom
    have hrnn := resOfSlot_nonneg segments (bucketOf x) (by decide)
    obtain ⟨hnom1, hnom2⟩ := hnom
    rw [hvm]
    omega
  · -- x at or beyond the overflow cutoff
    intro hcut
    have hov : bucketIdx x = 2000 := by
      have h1 := updateIdx_overflow segments x 0 (by decide) hcut
      rw [show totalSlots segments = 2000 from by decide] at h1
      simpa [bucketIdx] using h1
    have hbx : bucketOf x = 2000 := by
      unfold bucketOf
      rw [hov]
      rfl
    have hfc := firstCross_eq_none D.length p
      ((slotValsMs segments 0).zip (bucketCounts D)) 0
      (fun j hj => by
        rw [pairs_length] at hj
        intro hcr
        have := (hcross_iff j hj).mp hcr
        have hcum := hcum_lt j (by omega)
        omega)
    rw [hfc] at hv
    simpa using hv

end Sampler

namespace Sampler

set_option maxRecDepth 10000 in
/-- Claim C9 counterexample: the single duration 256,500 ms lies strictly
within the segment table's coverage (257,000 ms), yet all seven
percentiles report the sentinel 9,999,999 ms, which differs from the true
percentile 256,500 ms by far more than any segment's resolution: Update
rounds durations at or beyond coverage minus half the final resolution
(256,488 ms) into the overflow slot, which Percentiles never scans. -/
theorem percentiles_counterexample :
    ((256500 * msNs : Int) < coverageNs segments) ∧
    samplerPercentiles [256500 * msNs] =
      [9999999, 9999999, 9999999, 9999999, 9999999, 9999999, 9999999] ∧
    ∀ s ∈ segments, s.resolution < 9999999 * msNs - 256500 * msNs := by
  refine ⟨by decide, by decide, by decide⟩

set_option maxRecDepth 10000 in
theorem percentiles_within_resolution_witness :
    ((0 : Nat) : Int) * msNs - (0 : Int) ≤ resOfSlot segments (bucketOf 0) ∧
    (0 : Int) - ((0 : Nat) : Int) * msNs ≤ resOfSlot segments (bucketOf 0) := by
  exact ((percentiles_within_resolution [0] (by decide) (by decide)).2
    0 250 0 0 (by decide) (by decide) (by decide) (by decide)).1 (by decide)

end Sampler
